import Mathlib

/-!
Verification of the `copysec_risk_analyzer` repository.

Text is modelled as `List Char` (Python `str`).  Python floats produced by
`intersection / union` are modelled as exact rationals `ℚ`; for the word-set
sizes arising here the float comparisons against the literal `0.7` agree with
the exact rational comparisons.  Python exceptions caught at a function
boundary and converted to `None` are modelled with `Option`.
-/

/-- Python `\s` (ASCII range): the whitespace characters recognised by
`str.split()`, `str.strip()` and the `re` patterns used in the repository. -/
def isPySpace (c : Char) : Bool :=
  c = ' ' || c = '\t' || c = '\n' || c = '\r' || c = '\x0b' || c = '\x0c'

/-- Worker for `collapseWs`; the flag records whether the previous character
belonged to a whitespace run that has already emitted its single `' '`. -/
def collapseWsAux : Bool → List Char → List Char
  | _, [] => []
  | prevWs, c :: rest =>
    if isPySpace c then
      if prevWs then collapseWsAux true rest
      else ' ' :: collapseWsAux true rest
    else c :: collapseWsAux false rest

/-- `re.sub(r'\s+', ' ', text)`: every maximal whitespace run becomes one space. -/
def collapseWs (text : List Char) : List Char :=
  collapseWsAux false text

/-- `str.strip()`: drop leading and trailing Python whitespace. -/
def stripPy (l : List Char) : List Char :=
  ((l.dropWhile isPySpace).reverse.dropWhile isPySpace).reverse

/-- Worker for `pySplit`, accumulating the current word in reverse. -/
def pySplitAux : List Char → List Char → List (List Char)
  | acc, [] => if acc.isEmpty then [] else [acc.reverse]
  | acc, c :: rest =>
    if isPySpace c then
      if acc.isEmpty then pySplitAux [] rest else acc.reverse :: pySplitAux [] rest
    else pySplitAux (c :: acc) rest

/-- Python `str.split()` with no argument: split on whitespace runs,
producing no empty words. -/
def pySplit (l : List Char) : List (List Char) :=
  pySplitAux [] l

/-- Worker for `removeAll`: `skip` counts characters of an already-matched
occurrence that remain to be dropped (a match is never re-scanned, exactly as
in `re.sub` with a literal pattern). -/
def removeAllAux (pat : List Char) : List Char → Nat → List Char
  | [], _ => []
  | _ :: rest, skip + 1 => removeAllAux pat rest skip
  | c :: rest, 0 =>
    if pat.isPrefixOf (c :: rest) then removeAllAux pat rest (pat.length - 1)
    else c :: removeAllAux pat rest 0

/-- `re.sub(pat, '', text)` for a literal nonempty pattern: remove every
occurrence, scanning left to right without re-scanning replacements. -/
def removeAll (pat : List Char) (l : List Char) : List Char :=
  removeAllAux pat l 0

/-- Index of the last `'\n'` in a list, if any. -/
def lastNlIdx (l : List Char) : Option Nat :=
  (l.reverse.findIdx? (fun c => c = '\n')).map (fun k => l.length - 1 - k)

/-- Attempt to match the tail of `re` pattern `\n\s*\d+\s*\n` (everything
after its leading `'\n'`) at the head of `l`.  Returns the number of matched
characters.  Greedy semantics: `\s*` takes the maximal whitespace run, `\d+`
the maximal digit run, and the final `\n` is the last newline inside the
whitespace run that follows the digits. -/
def tryDigitLineLen (l : List Char) : Option Nat :=
  let w1 := l.takeWhile isPySpace
  let r1 := l.drop w1.length
  let ds := r1.takeWhile Char.isDigit
  if ds.isEmpty then none
  else
    let r2 := r1.drop ds.length
    let wrun := r2.takeWhile isPySpace
    match lastNlIdx wrun with
    | some j => some (w1.length + ds.length + j + 1)
    | none => none

/-- Worker for `subDigitLines`; `skip` drops the remaining characters of a
matched occurrence (the replacement `'\n'` has already been emitted). -/
def subDigitLinesAux : List Char → Nat → List Char
  | [], _ => []
  | _ :: rest, skip + 1 => subDigitLinesAux rest skip
  | c :: rest, 0 =>
    if c = '\n' then
      match tryDigitLineLen rest with
      | some n => '\n' :: subDigitLinesAux rest n
      | none => c :: subDigitLinesAux rest 0
    else c :: subDigitLinesAux rest 0

/-- `re.sub(r'\n\s*\d+\s*\n', '\n', text)`. -/
def subDigitLines (l : List Char) : List Char :=
  subDigitLinesAux l 0

/-- Python `text.split('\n\n')`: split at each non-overlapping occurrence of
a double newline, keeping empty pieces.  `acc` holds the current piece in
reverse. -/
def splitParas : List Char → List Char → List (List Char)
  | acc, '\n' :: '\n' :: rest => acc.reverse :: splitParas [] rest
  | acc, c :: rest => splitParas (c :: acc) rest
  | acc, [] => [acc.reverse]

example : collapseWs "a \n\t b".toList = "a b".toList := by decide
example : stripPy "  ab c  ".toList = "ab c".toList := by decide
example : pySplit "  foo  bar ".toList = ["foo".toList, "bar".toList] := by decide
example : removeAll "ab".toList "xabyabab".toList = "xy".toList := by decide
example : subDigitLines "a\n 12 \nb".toList = "a\nb".toList := by decide
example : subDigitLines "ab".toList = "ab".toList := by decide
example : splitParas [] "a\n\n\nb".toList = ["a".toList, "\nb".toList] := by decide
example : splitParas [] "".toList = [[]] := by decide

/-! ## `src/extractors/text_extractor.py` — `TextExtractor` -/

namespace Extractors

/-- One token of the regular expressions used by `_extract_risk_section`:
a literal string or `[^\n]*`. -/
inductive Tok
  | lit (s : List Char)
  | star
deriving DecidableEq

/-- Does the token sequence match a prefix of `l`?  `star` (`[^\n]*`) may
consume any number of non-newline characters. -/
def toksMatchPrefix : List Tok → List Char → Bool
  | [], _ => true
  | .lit s :: ts, l => s.isPrefixOf l && toksMatchPrefix ts (l.drop s.length)
  | .star :: ts, l =>
    (List.range ((l.takeWhile (fun c => c != '\n')).length + 1)).any
      (fun k => toksMatchPrefix ts (l.drop k))

/-- `re.search(pat, text).start()`: position of the leftmost match, if any. -/
def searchIdx (pat : List Tok) (text : List Char) : Option Nat :=
  (List.range (text.length + 1)).find? (fun i => toksMatchPrefix pat (text.drop i))

/-- The four `start_patterns` of `_extract_risk_section`. -/
def startPatterns : List (List Tok) :=
  [ [.lit "Item".toList, .star, .lit "1A".toList, .star, .lit "Risk Factors".toList],
    [.lit "ITEM".toList, .star, .lit "1A".toList, .star, .lit "RISK FACTORS".toList],
    [.lit "Item".toList, .star, .lit "1A.".toList],
    [.lit "ITEM".toList, .star, .lit "1A.".toList] ]

/-- The four `end_patterns` of `_extract_risk_section`. -/
def endPatterns : List (List Tok) :=
  [ [.lit "Item".toList, .star, .lit "1B".toList],
    [.lit "ITEM".toList, .star, .lit "1B".toList],
    [.lit "Item".toList, .star, .lit "2".toList],
    [.lit "ITEM".toList, .star, .lit "2".toList] ]

/-- The start-marker scan of `_extract_risk_section`: fold over the patterns
keeping the smallest match position, with `-1` as the "none found" sentinel. -/
def foldStartPos (text : List Char) : Int :=
  startPatterns.foldl (fun sp pat =>
    match searchIdx pat text with
    | some p => if sp = -1 ∨ (p : Int) < sp then (p : Int) else sp
    | none => sp) (-1)

/-- The end-marker scan: fold over the patterns keeping the smallest match
position in `after`, defaulting to `after.length`. -/
def foldEndPos (after : List Char) : Nat :=
  endPatterns.foldl (fun e pat =>
    match searchIdx pat after with
    | some p => if p < e then p else e
    | none => e) after.length

/-- `TextExtractor._extract_risk_section`: find the earliest start-marker
match, cut at the nearest end-marker match after it (end of text if none),
strip the slice, and return `None` if nothing is left. -/
def extract_risk_section (text : List Char) : Option (List Char) :=
  let sp := foldStartPos text
  if sp = -1 then none
  else
    let after := text.drop sp.toNat
    let sec := stripPy (after.take (foldEndPos after))
    if sec.isEmpty then none else some sec

/-- The literal removed by the third substitution of `_clean_text`. -/
def tocPat : List Char := "Table of Contents".toList

/-- `TextExtractor._clean_text` (extractors variant): collapse whitespace,
delete page-number lines and `Table of Contents`, split on blank lines,
strip each paragraph, drop empty and pure-numeric paragraphs, re-join. -/
def clean_text (text : List Char) : List Char :=
  let t1 := collapseWs text
  let t2 := subDigitLines t1
  let t3 := removeAll tocPat t2
  let paras := (splitParas [] t3).map stripPy
  let kept := paras.filter (fun p => !(p.all Char.isDigit))
  List.intercalate "\n\n".toList kept

end Extractors

/-! ## `src/processors/text_extractor.py` — `TextExtractor._process_content` -/

namespace Processors

/-- The `risk_starts` lead-in prefixes of `_process_content`. -/
def risk_starts : List (List Char) :=
  [ "The Company".toList, "Global".toList, "Future".toList, "If the".toList,
    "Changes".toList, "The business".toList, "The Company's".toList,
    "There can".toList, "The Company has".toList ]

/-- The grouping loop of `_process_content`: start a new candidate risk at
every paragraph beginning with a lead-in phrase (unless the accumulator is
empty), joining grouped paragraphs with single spaces. -/
def segmentAux : List (List Char) → List (List Char) → List (List Char)
  | [], current => if current.isEmpty then [] else [List.intercalate [' '] current]
  | p :: rest, current =>
    if (risk_starts.any (fun s => s.isPrefixOf p)) && !current.isEmpty then
      List.intercalate [' '] current :: segmentAux rest [p]
    else segmentAux rest (current ++ [p])

/-- All candidate risk-factor segments of a cleaned text (before the
minimum-word-count filter). -/
def segments (cleaned : List Char) : List (List Char) :=
  segmentAux (splitParas [] cleaned) []

/-- One entry of the `risk_factors` list built by `_process_content`. -/
structure PEntry where
  text : List Char
  word_count : Nat
  char_count : Nat
  summary : List Char
deriving DecidableEq

/-- The dictionary returned by `_process_content` (the constant
`section_title` and the wall-clock timestamp are omitted); `total_*` mirror
the `metadata` sub-dictionary. -/
structure RiskFactorData where
  risk_factors : List PEntry
  total_risks : Nat
  total_words : Nat
  total_chars : Nat
deriving DecidableEq

/-- `TextExtractor._process_content`: segment the cleaned text, keep entries
with more than 50 words, and aggregate metadata over all candidates. -/
def process_content (cleaned : List Char) : RiskFactorData :=
  let rfs := segments cleaned
  { risk_factors := (rfs.filter (fun rf => 50 < (pySplit rf).length)).map (fun rf =>
      { text := stripPy rf
        word_count := (pySplit rf).length
        char_count := rf.length
        summary := rf.takeWhile (fun c => c != '.') })
    total_risks := rfs.length
    total_words := (rfs.map (fun rf => (pySplit rf).length)).sum
    total_chars := (rfs.map List.length).sum }

end Processors

/-! ## `src/analyzers/risk_analyzer.py` — `RiskAnalyzer` -/

namespace RiskAnalyzer

/-- One risk-factor dictionary as consumed by `RiskAnalyzer`
(`{'title': ..., 'text': ..., 'word_count': ...}`). -/
structure Risk where
  title : List Char
  text : List Char
  word_count : Nat
deriving DecidableEq

/-- `RiskAnalyzer._calculate_similarity`: Jaccard similarity of the
lower-cased word sets, `0` when both texts have no words. -/
def calculate_similarity (t1 t2 : List Char) : ℚ :=
  let words1 : Finset (List Char) := (pySplit (t1.map Char.toLower)).toFinset
  let words2 : Finset (List Char) := (pySplit (t2.map Char.toLower)).toFinset
  let inter := (words1 ∩ words2).card
  let union := (words1 ∪ words2).card
  if 0 < union then (inter : ℚ) / (union : ℚ) else 0

/-- Python `enumerate`, with an explicit starting index. -/
def enumIdx {α : Type} : Nat → List α → List (Nat × α)
  | _, [] => []
  | k, a :: as => (k, a) :: enumIdx (k + 1) as

/-- The inner loop of `_match_risk_factors`: scan the enumerated previous
risks, skipping consumed indices, keeping the best (score, index, entry)
seen so far; an entry replaces the incumbent only when its score strictly
exceeds both the incumbent score and the `0.7` threshold. -/
def best_match_loop (c : Risk) : List (Nat × Risk) → Finset Nat →
    ℚ × Option (Nat × Risk) → ℚ × Option (Nat × Risk)
  | [], _, st => st
  | (i, p) :: rest, used, (bestScore, best) =>
    if i ∈ used then best_match_loop c rest used (bestScore, best)
    else
      let score := calculate_similarity c.text p.text
      if bestScore < score ∧ (7 : ℚ)/10 < score then
        best_match_loop c rest used (score, some (i, p))
      else best_match_loop c rest used (bestScore, best)

/-- The outer loop of `_match_risk_factors` plus the final pass appending
the still-unused previous risks as `(None, prev)` pairs. -/
def match_aux (eprevs : List (Nat × Risk)) :
    List Risk → Finset Nat → List (Option Risk × Option Risk)
  | [], used => (eprevs.filter (fun ip => decide (ip.1 ∉ used))).map
      (fun ip => (none, some ip.2))
  | c :: cs, used =>
    match (best_match_loop c eprevs used (0, none)).2 with
    | some (i, p) => (some c, some p) :: match_aux eprevs cs (insert i used)
    | none => (some c, none) :: match_aux eprevs cs used

/-- `RiskAnalyzer._match_risk_factors`. -/
def match_risk_factors (current_risks previous_risks : List Risk) :
    List (Option Risk × Option Risk) :=
  match_aux (enumIdx 0 previous_risks) current_risks ∅

/-- One change record of `_analyze_content_changes` (the `'type'` field of
the Python dictionary is the constructor). -/
inductive Change
  | modified (similarity : ℚ) (current_summary previous_summary : List Char)
      (word_count_change : ℤ)
  | added (summary : List Char) (word_count : Nat)
  | removed (summary : List Char) (word_count : Nat)
deriving DecidableEq

/-- The `'type'` string of a change record. -/
def Change.ctype : Change → List Char
  | .modified .. => "modified".toList
  | .added .. => "added".toList
  | .removed .. => "removed".toList

/-- The dictionary returned by `_analyze_content_changes` (`changes` plus
the `summary` counts). -/
structure ContentChanges where
  changes : List Change
  total_changes : Nat
  added_count : Nat
  removed_count : Nat
  modified_count : Nat
deriving DecidableEq

/-- `RiskAnalyzer._analyze_content_changes`.  The `(none, none)` branch is
unreachable for outputs of `match_risk_factors` (in Python it would raise). -/
def analyze_content_changes (current_risks previous_risks : List Risk) :
    ContentChanges :=
  let matched := match_risk_factors current_risks previous_risks
  let changes := matched.map (fun mp =>
    match mp with
    | (some c, some p) => Change.modified (calculate_similarity c.text p.text)
        c.title p.title ((c.word_count : ℤ) - (p.word_count : ℤ))
    | (some c, none) => Change.added c.title c.word_count
    | (none, some p) => Change.removed p.title p.word_count
    | (none, none) => Change.removed [] 0)
  { changes := changes
    total_changes := changes.length
    added_count := (changes.filter (fun ch => decide (ch.ctype = "added".toList))).length
    removed_count := (changes.filter (fun ch => decide (ch.ctype = "removed".toList))).length
    modified_count := (changes.filter (fun ch => decide (ch.ctype = "modified".toList))).length }

/-- A `current_year`/`previous_year` input of `compare_years`: a dictionary
holding a `risk_factors` list. -/
structure YearData where
  risk_factors : List Risk
deriving DecidableEq

/-- The per-year half of the statistics dictionary. -/
structure YearStats where
  total_risks : Nat
  total_words : Nat
  avg_words_per_risk : ℚ
deriving DecidableEq

/-- The dictionary built by `_compare_statistics`. -/
structure Stats where
  total_risks_change : ℤ
  word_count_change : ℤ
  current_year : YearStats
  previous_year : YearStats
deriving DecidableEq

/-- `RiskAnalyzer._compare_statistics`.  In Python the two
`avg_words_per_risk` divisions raise `ZeroDivisionError` exactly when the
corresponding `risk_factors` list is empty; the exception propagates to
`compare_years`, modelled here as `none`. -/
def compare_statistics (current previous : YearData) : Option Stats :=
  if current.risk_factors.length = 0 ∨ previous.risk_factors.length = 0 then none
  else
    some
      { total_risks_change :=
          (current.risk_factors.length : ℤ) - (previous.risk_factors.length : ℤ)
        word_count_change :=
          ((current.risk_factors.map Risk.word_count).sum : ℤ) -
            ((previous.risk_factors.map Risk.word_count).sum : ℤ)
        current_year :=
          { total_risks := current.risk_factors.length
            total_words := (current.risk_factors.map Risk.word_count).sum
            avg_words_per_risk :=
              ((current.risk_factors.map Risk.word_count).sum : ℚ) /
                (current.risk_factors.length : ℚ) }
        previous_year :=
          { total_risks := previous.risk_factors.length
            total_words := (previous.risk_factors.map Risk.word_count).sum
            avg_words_per_risk :=
              ((previous.risk_factors.map Risk.word_count).sum : ℚ) /
                (previous.risk_factors.length : ℚ) } }

/-- Outcome of the OpenAI chat-completion call made by `_get_ai_analysis`:
either the request raised, or it returned a message content string. -/
inductive ServiceOutcome
  | err (msg : List Char)
  | ok (content : List Char)

/-- The value of the `ai_analysis` field: either the JSON document parsed
from the service response, or the fallback dictionary built in the
`except` branch (whose constant `summary`/`key_insights` fields are
omitted, keeping the `error` message). -/
inductive AiAnalysis (α : Type)
  | parsed (a : α)
  | failed (error : List Char)
deriving DecidableEq

/-- `RiskAnalyzer._get_ai_analysis`, with the external service call and the
`json.loads` parser abstracted: a raised request or unparseable content
lands in the `except` branch, producing the fallback dictionary. -/
def get_ai_analysis {α : Type} (parse : List Char → Option α) :
    ServiceOutcome → AiAnalysis α
  | .err m => .failed m
  | .ok content =>
    match parse content with
    | some a => .parsed a
    | none => .failed "malformed JSON".toList

/-- The dictionary returned by `compare_years` on success (the wall-clock
timestamp is omitted). -/
structure ComparisonResult (α : Type) where
  statistics : Stats
  content_changes : ContentChanges
  ai_analysis : AiAnalysis α
deriving DecidableEq

/-- `RiskAnalyzer.compare_years`: statistics, then content changes, then AI
analysis; any exception (the statistics division by zero) is caught and
converted to `None`. -/
def compare_years {α : Type} (parse : List Char → Option α)
    (current_year previous_year : YearData) (outcome : ServiceOutcome) :
    Option (ComparisonResult α) :=
  match compare_statistics current_year previous_year with
  | none => none
  | some stats =>
    some
      { statistics := stats
        content_changes :=
          analyze_content_changes current_year.risk_factors previous_year.risk_factors
        ai_analysis := get_ai_analysis parse outcome }

end RiskAnalyzer

/-! ## `src/collectors/sec_client.py` — `SECClient._make_request` -/

namespace SECClient

/-- The retry loop of `_make_request`.  `outcome k` is the result of the
`k`-th HTTP attempt (`none` models a raised `RequestException`).  Returns
the response, if any, together with the list of `time.sleep` durations
(`(attempt + 1) * 2` seconds, slept in the `except` branch). -/
def make_request_aux {α : Type} (outcome : Nat → Option α) :
    Nat → Nat → Option α × List Nat
  | _, 0 => (none, [])
  | attempt, fuel + 1 =>
    match outcome attempt with
    | some r => (some r, [])
    | none =>
      let rest := make_request_aux outcome (attempt + 1) fuel
      (rest.1, (attempt + 1) * 2 :: rest.2)

/-- `SECClient._make_request` with its `max_retries` parameter
(default `3` at every call site). -/
def make_request {α : Type} (outcome : Nat → Option α) (max_retries : Nat) :
    Option α × List Nat :=
  make_request_aux outcome 0 max_retries

end SECClient

/-! ## `src/analyzers/risk_comparator.py` — `RiskComparator` -/

namespace RiskComparator

/-- The dictionary built by `RiskComparator._load_risk_factors` for one
year: the joined risk-factor text and the summed word count.  A failed load
is `none`, matching the `if not rf1 or not rf2` guard of `compare_years`. -/
structure LoadedRiskFactors where
  content : List Char
  word_count : Nat
deriving DecidableEq

/-- `RiskComparator._calculate_similarity`: textually identical to
`RiskAnalyzer._calculate_similarity` — Jaccard similarity of the
lower-cased word sets, `0` when both texts have no words. -/
def calculate_similarity (t1 t2 : List Char) : ℚ :=
  let words1 : Finset (List Char) := (pySplit (t1.map Char.toLower)).toFinset
  let words2 : Finset (List Char) := (pySplit (t2.map Char.toLower)).toFinset
  let inter := (words1 ∩ words2).card
  let union := (words1 ∪ words2).card
  if 0 < union then (inter : ℚ) / (union : ℚ) else 0

/-- `RiskComparator._analyze_changes`, with the OpenAI call and the
`json.loads` parser abstracted exactly as in `RiskAnalyzer`: unlike
`_get_ai_analysis`, its `except` branch returns `None` — there is no
fallback dictionary.  (`parse` returning `none` also covers a response
whose parsed dictionary is empty, which the caller's `if not analysis`
check treats the same way.) -/
def analyze_changes {α : Type} (parse : List Char → Option α) :
    RiskAnalyzer.ServiceOutcome → Option α
  | .err _ => none
  | .ok content => parse content

/-- The dictionary returned by `RiskComparator.compare_years` on success
(ticker, year labels, the wall-clock timestamp and the JSON dump to disk
are omitted; `word_count` fields mirror the `metadata` sub-dictionary). -/
structure ComparisonOutput (α : Type) where
  similarity_score : ℚ
  analysis : α
  current_word_count : Nat
  previous_word_count : Nat
  word_count_change : ℤ
deriving DecidableEq

/-- `RiskComparator.compare_years`: `None` when either year fails to load;
otherwise compute the similarity score, then the AI analysis — and return
`None` (`if not analysis: return None`) when the analysis is absent, so a
summarization failure discards the whole output, statistics included. -/
def compare_years {α : Type} (parse : List Char → Option α)
    (rf1 rf2 : Option LoadedRiskFactors)
    (outcome : RiskAnalyzer.ServiceOutcome) : Option (ComparisonOutput α) :=
  match rf1, rf2 with
  | some r1, some r2 =>
    match analyze_changes parse outcome with
    | none => none
    | some a =>
      some
        { similarity_score := calculate_similarity r1.content r2.content
          analysis := a
          current_word_count := r1.word_count
          previous_word_count := r2.word_count
          word_count_change := (r1.word_count : ℤ) - (r2.word_count : ℤ) }
  | _, _ => none

end RiskComparator

/-! ## Helper lemmas: the retry loop -/

theorem make_request_aux_all_fail {α : Type} (outcome : Nat → Option α) :
    ∀ (fuel a : Nat), (∀ k, a ≤ k → k < a + fuel → outcome k = none) →
      SECClient.make_request_aux outcome a fuel =
        (none, (List.range fuel).map (fun t => (a + t + 1) * 2)) := by
  intro fuel
  induction fuel with
  | zero => intro a _; rfl
  | succ n ih =>
    intro a h
    have ha : outcome a = none := h a (Nat.le_refl a) (by omega)
    have hrest := ih (a + 1) (fun k hk1 hk2 => h k (by omega) (by omega))
    simp only [SECClient.make_request_aux, ha, hrest]
    have htail : List.map ((fun t => (a + t + 1) * 2) ∘ Nat.succ) (List.range n)
        = List.map (fun t => (a + 1 + t + 1) * 2) (List.range n) :=
      List.map_congr_left (fun t _ => by simp only [Function.comp_apply]; omega)
    rw [List.range_succ_eq_map, List.map_cons, List.map_map, htail]

theorem make_request_aux_first_success {α : Type} (outcome : Nat → Option α) :
    ∀ (fuel a j : Nat) (r : α), a ≤ j → j < a + fuel → outcome j = some r →
      (∀ k, a ≤ k → k < j → outcome k = none) →
      SECClient.make_request_aux outcome a fuel =
        (some r, (List.range (j - a)).map (fun t => (a + t + 1) * 2)) := by
  intro fuel
  induction fuel with
  | zero => intro a j r h1 h2; omega
  | succ n ih =>
    intro a j r h1 h2 hj hnone
    by_cases hja : j = a
    · subst hja
      simp only [SECClient.make_request_aux, hj, Nat.sub_self, List.range_zero, List.map_nil]
    · have ha : outcome a = none := hnone a (Nat.le_refl a) (by omega)
      have hrest := ih (a + 1) j r (by omega) (by omega) hj
        (fun k hk1 hk2 => hnone k (by omega) hk2)
      simp only [SECClient.make_request_aux, ha, hrest]
      have hsub : j - a = (j - (a + 1)) + 1 := by omega
      have htail : List.map ((fun t => (a + t + 1) * 2) ∘ Nat.succ) (List.range (j - (a + 1)))
          = List.map (fun t => (a + 1 + t + 1) * 2) (List.range (j - (a + 1))) :=
        List.map_congr_left (fun t _ => by simp only [Function.comp_apply]; omega)
      rw [hsub, List.range_succ_eq_map, List.map_cons, List.map_map, htail]

/-- **C9** (amended): `_make_request` retries a transient failure with a
bounded, fixed attempt count (`max_retries`, `3` at every call site) and a
*linearly* increasing backoff delay of `(attempt + 1) * 2` seconds slept
after each failed attempt (including the last); after the attempts are
exhausted it returns `None` rather than raising, and the first successful
attempt `j` returns that response after delays `2, 4, …, 2 * j`. -/
theorem make_request_linear_backoff {α : Type} (outcome : Nat → Option α)
    (n j : Nat) (r : α) :
    ((∀ k, k < n → outcome k = none) →
      SECClient.make_request outcome n =
        (none, (List.range n).map (fun t => (t + 1) * 2)))
    ∧ (j < n → outcome j = some r → (∀ k, k < j → outcome k = none) →
      SECClient.make_request outcome n =
        (some r, (List.range j).map (fun t => (t + 1) * 2))) := by
  constructor
  · intro h
    have := make_request_aux_all_fail outcome n 0 (fun k _ hk => h k (by omega))
    simpa [SECClient.make_request] using this
  · intro hjn hj hnone
    have := make_request_aux_first_success outcome n 0 j r (Nat.zero_le j) (by omega) hj
      (fun k _ hk => hnone k hk)
    simpa [SECClient.make_request] using this

/-- Witness for C9: with every attempt failing, the three configured
attempts are exhausted, `None` is returned and the slept delays are
`2, 4, 6` seconds. -/
theorem make_request_linear_backoff_witness :
    SECClient.make_request (fun _ => (none : Option Unit)) 3 = (none, [2, 4, 6]) := by
  have h := (make_request_linear_backoff (fun _ => (none : Option Unit)) 3 0 ()).1
    (fun k _ => rfl)
  simpa using h

/-- **C9** counterexample: the claim calls the backoff *exponentially*
increasing, but the full sleep sequence of a failing run with the default
3 attempts is `2, 4, 6` — an arithmetic progression, not a geometric one
(`4 * 4 ≠ 2 * 6`). -/
theorem make_request_backoff_cex :
    (SECClient.make_request (fun _ => (none : Option Unit)) 3).2 = [2, 4, 6] ∧
    ¬ (4 * 4 = 2 * 6) := by decide

/-- **C10**: when either year's `risk_factors` list is empty, the
`avg_words_per_risk` division in `_compare_statistics` raises
`ZeroDivisionError`, the `compare_years` handler catches it, and the caller
observes `None` instead of an escaping exception. -/
theorem compare_years_empty_year_none {α : Type} (parse : List Char → Option α)
    (cur prev : RiskAnalyzer.YearData) (outcome : RiskAnalyzer.ServiceOutcome)
    (h : cur.risk_factors = [] ∨ prev.risk_factors = []) :
    RiskAnalyzer.compare_years parse cur prev outcome = none := by
  unfold RiskAnalyzer.compare_years RiskAnalyzer.compare_statistics
  rcases h with h | h <;> simp [h]

/-- Witness for C10 at two empty years. -/
theorem compare_years_empty_year_none_witness :
    RiskAnalyzer.compare_years (fun _ => (none : Option Unit)) ⟨[]⟩ ⟨[]⟩
      (RiskAnalyzer.ServiceOutcome.err []) = none :=
  compare_years_empty_year_none _ _ _ _ (Or.inl rfl)

namespace RiskAnalyzer

/-- A summarization outcome on which `_get_ai_analysis` lands in its
`except` branch: the service call raised, or its content fails to parse. -/
def summarizationFails {α : Type} (parse : List Char → Option α) :
    ServiceOutcome → Prop
  | .err _ => True
  | .ok c => parse c = none

end RiskAnalyzer

/-- **C8**: a summarization failure (service error or malformed JSON) never
causes the whole comparison output to be absent — whenever `compare_years`
returns a result under any summarization outcome, it also returns one under
a failing outcome, still carrying the statistical comparison, with the
`ai_analysis` field degraded to the fallback error dictionary. -/
theorem compare_years_degrades_gracefully {α : Type} (parse : List Char → Option α)
    (cur prev : RiskAnalyzer.YearData) (o ofail : RiskAnalyzer.ServiceOutcome)
    (hfail : RiskAnalyzer.summarizationFails parse ofail)
    (h : (RiskAnalyzer.compare_years parse cur prev o).isSome) :
    ∃ r, RiskAnalyzer.compare_years parse cur prev ofail = some r ∧
      (∃ s, RiskAnalyzer.compare_statistics cur prev = some s ∧ r.statistics = s) ∧
      ∃ m, r.ai_analysis = RiskAnalyzer.AiAnalysis.failed m := by
  unfold RiskAnalyzer.compare_years at h ⊢
  cases hs : RiskAnalyzer.compare_statistics cur prev with
  | none => rw [hs] at h; simp at h
  | some s =>
    refine ⟨_, rfl, ⟨s, rfl, rfl⟩, ?_⟩
    cases ofail with
    | err m => exact ⟨m, rfl⟩
    | ok c =>
      simp only [RiskAnalyzer.summarizationFails] at hfail
      exact ⟨"malformed JSON".toList, by simp [RiskAnalyzer.get_ai_analysis, hfail]⟩

/-- Witness for C8: a nonempty pair of years, compared once with a parseable
outcome and once with a service error. -/
theorem compare_years_degrades_gracefully_witness :
    ∃ r, RiskAnalyzer.compare_years (fun _ => (some () : Option Unit))
        ⟨[⟨"t".toList, "hello".toList, 1⟩]⟩ ⟨[⟨"t".toList, "hello".toList, 1⟩]⟩
        (RiskAnalyzer.ServiceOutcome.err "boom".toList) = some r ∧
      (∃ s, RiskAnalyzer.compare_statistics
          ⟨[⟨"t".toList, "hello".toList, 1⟩]⟩ ⟨[⟨"t".toList, "hello".toList, 1⟩]⟩ = some s ∧
        r.statistics = s) ∧
      ∃ m, r.ai_analysis = RiskAnalyzer.AiAnalysis.failed m :=
  compare_years_degrades_gracefully (fun _ => (some () : Option Unit))
    ⟨[⟨"t".toList, "hello".toList, 1⟩]⟩ ⟨[⟨"t".toList, "hello".toList, 1⟩]⟩
    (RiskAnalyzer.ServiceOutcome.ok []) (RiskAnalyzer.ServiceOutcome.err "boom".toList)
    trivial
    (by unfold RiskAnalyzer.compare_years RiskAnalyzer.compare_statistics; simp)

/-! ## C6 / C7: the segmenter -/

/-- A cleaned text consisting of one 51-word candidate segment. -/
def longRiskText : List Char := List.intercalate [' '] (List.replicate 51 "w".toList)

/-- **C6**: every `RiskFactorEntry` produced by `_process_content` has more
than 50 words (hence at least the configured minimum threshold); candidate
segments at or below 50 words are discarded and never appear in the
`risk_factors` list. -/
theorem process_content_min_word_count (ct : List Char) :
    ∀ e ∈ (Processors.process_content ct).risk_factors, 50 < e.word_count := by
  intro e he
  simp only [Processors.process_content, List.mem_map, List.mem_filter] at he
  obtain ⟨rf, ⟨_, hlen⟩, rfl⟩ := he
  simpa using of_decide_eq_true hlen

/-- Witness for C6 on a 51-word segment. -/
theorem process_content_min_word_count_witness :
    50 < (((Processors.process_content longRiskText).risk_factors).getD 0
      ⟨[], 0, 0, []⟩).word_count :=
  process_content_min_word_count longRiskText _ (by decide)

/-- **C7** counterexample: on the cleaned text `"a b c"` the single 3-word
candidate is discarded by the 50-word filter, so the returned
`risk_factors` list is empty, yet the metadata reports `total_risks = 1`
and `total_words = 3` — the aggregate metadata is computed over all
candidates, not over the returned entries. -/
theorem process_content_metadata_cex :
    (Processors.process_content "a b c".toList).risk_factors.length = 0 ∧
    (Processors.process_content "a b c".toList).total_risks = 1 ∧
    (Processors.process_content "a b c".toList).total_words = 3 := by decide

/-- **C7** (amended): `total_risks` counts every candidate segment and
`total_words` sums words over every candidate segment, *including* the
candidates discarded by the 50-word minimum filter; the metadata therefore
agrees with the returned `risk_factors` list exactly in the case that no
candidate is discarded. -/
theorem process_content_metadata (ct : List Char) :
    (Processors.process_content ct).total_risks = (Processors.segments ct).length ∧
    (Processors.process_content ct).total_words =
      ((Processors.segments ct).map (fun rf => (pySplit rf).length)).sum ∧
    ((∀ rf ∈ Processors.segments ct, 50 < (pySplit rf).length) →
      (Processors.process_content ct).total_risks =
        (Processors.process_content ct).risk_factors.length ∧
      (Processors.process_content ct).total_words =
        ((Processors.process_content ct).risk_factors.map
          Processors.PEntry.word_count).sum) := by
  refine ⟨rfl, rfl, fun hall => ?_⟩
  have hfilter : (Processors.segments ct).filter
      (fun rf => decide (50 < (pySplit rf).length)) = Processors.segments ct := by
    apply List.filter_eq_self.mpr
    intro rf hrf
    exact decide_eq_true (hall rf hrf)
  constructor
  · simp only [Processors.process_content, hfilter, List.length_map]
  · simp only [Processors.process_content, hfilter, List.map_map]
    rfl

/-- Witness for C7 (amended) on a text whose single candidate passes the
filter, so metadata and entry list agree. -/
theorem process_content_metadata_witness :
    (Processors.process_content longRiskText).total_risks =
      (Processors.process_content longRiskText).risk_factors.length ∧
    (Processors.process_content longRiskText).total_words =
      ((Processors.process_content longRiskText).risk_factors.map
        Processors.PEntry.word_count).sum :=
  (process_content_metadata longRiskText).2.2 (by decide)

/-! ## C4: similarity bounds and identical texts -/

namespace RiskAnalyzer

theorem calculate_similarity_nonneg (t1 t2 : List Char) :
    0 ≤ calculate_similarity t1 t2 := by
  simp only [calculate_similarity]
  split
  · positivity
  · exact le_refl 0

theorem calculate_similarity_le_one (t1 t2 : List Char) :
    calculate_similarity t1 t2 ≤ 1 := by
  simp only [calculate_similarity]
  split
  · rename_i h
    rw [div_le_one (by exact_mod_cast h)]
    exact_mod_cast Finset.card_le_card Finset.inter_subset_union
  · exact zero_le_one

theorem calculate_similarity_self (t : List Char)
    (h : pySplit (t.map Char.toLower) ≠ []) : calculate_similarity t t = 1 := by
  simp only [calculate_similarity]
  obtain ⟨w, hw⟩ := List.exists_mem_of_ne_nil _ h
  have hpos : 0 < ((pySplit (t.map Char.toLower)).toFinset ∪
      (pySplit (t.map Char.toLower)).toFinset).card := by
    apply Finset.card_pos.mpr
    exact ⟨w, by simp [List.mem_toFinset, hw]⟩
  rw [if_pos hpos, Finset.inter_self, Finset.union_self]
  rw [Finset.union_self] at hpos
  exact div_self (Nat.cast_ne_zero.mpr hpos.ne')

theorem best_match_loop_one (c p : Risk) (i : Nat) (used : Finset Nat)
    (hi : i ∉ used) :
    ((7 : ℚ)/10 < calculate_similarity c.text p.text →
      best_match_loop c [(i, p)] used (0, none) =
        (calculate_similarity c.text p.text, some (i, p)))
    ∧ (calculate_similarity c.text p.text ≤ (7 : ℚ)/10 →
      best_match_loop c [(i, p)] used (0, none) = (0, none)) := by
  constructor
  · intro h
    have h0 : (0 : ℚ) < calculate_similarity c.text p.text :=
      lt_trans (by norm_num) h
    simp only [best_match_loop]
    rw [if_neg hi, if_pos ⟨h0, h⟩]
  · intro h
    simp only [best_match_loop]
    rw [if_neg hi, if_neg (by intro hc; exact absurd hc.2 (not_lt.mpr h))]

theorem match_single_hit (c p : Risk)
    (h : (7 : ℚ)/10 < calculate_similarity c.text p.text) :
    match_risk_factors [c] [p] = [(some c, some p)] := by
  have hb := (best_match_loop_one c p 0 ∅ (Finset.not_mem_empty 0)).1 h
  simp [match_risk_factors, enumIdx, match_aux, hb]

theorem match_single_miss (c p : Risk)
    (h : calculate_similarity c.text p.text ≤ (7 : ℚ)/10) :
    match_risk_factors [c] [p] = [(some c, none), (none, some p)] := by
  have hb := (best_match_loop_one c p 0 ∅ (Finset.not_mem_empty 0)).2 h
  simp [match_risk_factors, enumIdx, match_aux, hb]

theorem analyze_identical (e : Risk) (h : pySplit (e.text.map Char.toLower) ≠ []) :
    (analyze_content_changes [e] [e]).changes =
      [Change.modified 1 e.title e.title 0] := by
  have h1 : calculate_similarity e.text e.text = 1 := calculate_similarity_self _ h
  have hm := match_single_hit e e (by rw [h1]; norm_num)
  simp [analyze_content_changes, hm, h1]

end RiskAnalyzer

/-- **C4** (amended): every similarity score lies in `[0, 1]`; two identical
texts *containing at least one word* yield similarity `1.0` and the pair is
classified `"modified"` — the code has no `"unchanged"` classification, so
byte-identical matched pairs are also reported as `"modified"`.  (For
identical texts with no words the similarity is `0` and no match occurs.) -/
theorem similarity_bounds_and_identical_modified :
    (∀ t1 t2 : List Char, 0 ≤ RiskAnalyzer.calculate_similarity t1 t2 ∧
      RiskAnalyzer.calculate_similarity t1 t2 ≤ 1)
    ∧ (∀ t : List Char, pySplit (t.map Char.toLower) ≠ [] →
      RiskAnalyzer.calculate_similarity t t = 1)
    ∧ (∀ e : RiskAnalyzer.Risk, pySplit (e.text.map Char.toLower) ≠ [] →
      (RiskAnalyzer.analyze_content_changes [e] [e]).changes =
        [RiskAnalyzer.Change.modified 1 e.title e.title 0]) :=
  ⟨fun t1 t2 => ⟨RiskAnalyzer.calculate_similarity_nonneg t1 t2,
      RiskAnalyzer.calculate_similarity_le_one t1 t2⟩,
    fun t ht => RiskAnalyzer.calculate_similarity_self t ht,
    fun e he => RiskAnalyzer.analyze_identical e he⟩

/-- Witness for C4 (amended) at concrete texts. -/
theorem similarity_bounds_and_identical_modified_witness :
    (0 ≤ RiskAnalyzer.calculate_similarity "hello".toList "world".toList ∧
      RiskAnalyzer.calculate_similarity "hello".toList "world".toList ≤ 1) ∧
    RiskAnalyzer.calculate_similarity "hello there".toList "hello there".toList = 1 ∧
    (RiskAnalyzer.analyze_content_changes [⟨"t".toList, "hello".toList, 5⟩]
        [⟨"t".toList, "hello".toList, 5⟩]).changes =
      [RiskAnalyzer.Change.modified 1 "t".toList "t".toList 0] :=
  ⟨similarity_bounds_and_identical_modified.1 "hello".toList "world".toList,
    similarity_bounds_and_identical_modified.2.1 "hello there".toList (by decide),
    similarity_bounds_and_identical_modified.2.2 ⟨"t".toList, "hello".toList, 5⟩ (by decide)⟩

/-- **C4** counterexample: for the byte-identical pair of *empty* texts the
similarity is `0`, not `1.0`, and the pair is reported as an independent
`"added"`/`"removed"` event; moreover a byte-identical nonempty pair is
classified `"modified"`, never `"unchanged"` (no such classification exists
in `_analyze_content_changes`). -/
theorem similarity_identical_cex :
    RiskAnalyzer.calculate_similarity [] [] = 0 ∧ (0 : ℚ) ≠ 1 ∧
    ((RiskAnalyzer.analyze_content_changes [⟨"t".toList, [], 0⟩]
        [⟨"t".toList, [], 0⟩]).changes.map RiskAnalyzer.Change.ctype) =
      ["added".toList, "removed".toList] ∧
    ((RiskAnalyzer.analyze_content_changes [⟨"t".toList, "hello".toList, 5⟩]
        [⟨"t".toList, "hello".toList, 5⟩]).changes.map RiskAnalyzer.Change.ctype) =
      ["modified".toList] ∧
    "modified".toList ≠ "unchanged".toList := by
  refine ⟨by decide, by norm_num, by decide, ?_, by decide⟩
  have h := RiskAnalyzer.analyze_identical ⟨"t".toList, "hello".toList, 5⟩ (by decide)
  rw [h]
  rfl

/-! ## Helper lemmas: enumeration -/

namespace RiskAnalyzer

theorem enumIdx_map_snd {α : Type} : ∀ (k : Nat) (l : List α),
    (enumIdx k l).map Prod.snd = l := by
  intro k l
  induction l generalizing k with
  | nil => rfl
  | cons a as ih => simp [enumIdx, ih]

theorem mem_enumIdx_ge {α : Type} : ∀ (k : Nat) (l : List α) (ip : Nat × α),
    ip ∈ enumIdx k l → k ≤ ip.1 := by
  intro k l
  induction l generalizing k with
  | nil => intro ip h; simp [enumIdx] at h
  | cons a as ih =>
    intro ip h
    rcases (List.mem_cons).mp h with h | h
    · subst h; exact Nat.le_refl k
    · exact Nat.le_of_succ_le (ih (k + 1) ip h)

theorem enumIdx_pairwise_lt {α : Type} : ∀ (k : Nat) (l : List α),
    (enumIdx k l).Pairwise (fun a b => a.1 < b.1) := by
  intro k l
  induction l generalizing k with
  | nil => exact List.Pairwise.nil
  | cons a as ih =>
    refine List.pairwise_cons.mpr ⟨?_, ih (k + 1)⟩
    intro b hb
    exact Nat.lt_of_succ_le (mem_enumIdx_ge (k + 1) as b hb)

theorem enumIdx_keys_nodup {α : Type} (k : Nat) (l : List α) :
    ((enumIdx k l).map Prod.fst).Nodup := by
  have h := enumIdx_pairwise_lt k l
  exact (List.pairwise_map).mpr (h.imp (fun hab => Nat.ne_of_lt hab))

theorem mem_enumIdx {α : Type} : ∀ (k : Nat) (l : List α) (j : Nat) (q : α),
    (j, q) ∈ enumIdx k l → ∃ t, ∃ ht : t < l.length, j = k + t ∧ l.get ⟨t, ht⟩ = q := by
  intro k l
  induction l generalizing k with
  | nil => intro j q h; simp [enumIdx] at h
  | cons a as ih =>
    intro j q h
    rcases (List.mem_cons).mp h with h | h
    · refine ⟨0, by simp, ?_, ?_⟩
      · simpa using congrArg Prod.fst h
      · simpa using (congrArg Prod.snd h).symm
    · obtain ⟨t, ht, hj, hget⟩ := ih (k + 1) j q h
      exact ⟨t + 1, by simpa using ht, by omega, hget⟩

theorem get_mem_enumIdx {α : Type} : ∀ (k : Nat) (l : List α) (t : Nat)
    (ht : t < l.length), (k + t, l.get ⟨t, ht⟩) ∈ enumIdx k l := by
  intro k l
  induction l generalizing k with
  | nil => intro t ht; simp at ht
  | cons a as ih =>
    intro t ht
    cases t with
    | zero => simp [enumIdx]
    | succ t =>
      have h := ih (k + 1) t (by simpa using ht)
      have : k + (t + 1) = k + 1 + t := by omega
      rw [this]
      exact List.mem_cons_of_mem _ h

/-! ## Helper lemmas: the greedy best-match loop -/

theorem best_match_loop_spec (c : Risk) (used : Finset Nat) :
    ∀ (l : List (Nat × Risk)) (s : ℚ) (b : Option (Nat × Risk)),
      (best_match_loop c l used (s, b) = (s, b) ∧
        ∀ ip ∈ l, ip.1 ∉ used →
          (calculate_similarity c.text ip.2.text ≤ (7 : ℚ)/10 ∨
            calculate_similarity c.text ip.2.text ≤ s))
      ∨ (∃ l₁ x l₂, l = l₁ ++ x :: l₂ ∧ x.1 ∉ used ∧
          best_match_loop c l used (s, b) =
            (calculate_similarity c.text x.2.text, some x) ∧
          s < calculate_similarity c.text x.2.text ∧
          (7 : ℚ)/10 < calculate_similarity c.text x.2.text ∧
          (∀ ip ∈ l₁, ip.1 ∉ used →
            (calculate_similarity c.text ip.2.text ≤ (7 : ℚ)/10 ∨
              calculate_similarity c.text ip.2.text <
                calculate_similarity c.text x.2.text)) ∧
          (∀ ip ∈ l₂, ip.1 ∉ used →
            (calculate_similarity c.text ip.2.text ≤ (7 : ℚ)/10 ∨
              calculate_similarity c.text ip.2.text ≤
                calculate_similarity c.text x.2.text))) := by
  intro l
  induction l with
  | nil =>
    intro s b
    left
    exact ⟨rfl, by simp⟩
  | cons hd tl ih =>
    intro s b
    obtain ⟨i, p⟩ := hd
    by_cases hiu : i ∈ used
    · have hstep : best_match_loop c ((i, p) :: tl) used (s, b) =
          best_match_loop c tl used (s, b) := by
        simp only [best_match_loop]
        rw [if_pos hiu]
      rcases ih s b with ⟨h1, h2⟩ | ⟨l₁, x, l₂, heq, hx, hres, hgt, hthr, hl1, hl2⟩
      · left
        refine ⟨by rw [hstep, h1], ?_⟩
        intro ip hip hu
        rcases (List.mem_cons).mp hip with h | h
        · rw [h] at hu
          exact absurd hiu hu
        · exact h2 ip h hu
      · right
        refine ⟨(i, p) :: l₁, x, l₂, by simp [heq], hx, by rw [hstep, hres], hgt, hthr, ?_, hl2⟩
        intro ip hip hu
        rcases (List.mem_cons).mp hip with h | h
        · rw [h] at hu
          exact absurd hiu hu
        · exact hl1 ip h hu
    · by_cases hcond : s < calculate_similarity c.text p.text ∧
          (7 : ℚ)/10 < calculate_similarity c.text p.text
      · have hstep : best_match_loop c ((i, p) :: tl) used (s, b) =
            best_match_loop c tl used (calculate_similarity c.text p.text, some (i, p)) := by
          simp only [best_match_loop]
          rw [if_neg hiu, if_pos hcond]
        rcases ih (calculate_similarity c.text p.text) (some (i, p)) with
          ⟨h1, h2⟩ | ⟨l₁, x, l₂, heq, hx, hres, hgt, hthr, hl1, hl2⟩
        · right
          refine ⟨[], (i, p), tl, rfl, hiu, by rw [hstep, h1], hcond.1, hcond.2, by simp, ?_⟩
          intro ip hip hu
          exact h2 ip hip hu
        · right
          refine ⟨(i, p) :: l₁, x, l₂, by simp [heq], hx, by rw [hstep, hres],
            lt_trans hcond.1 hgt, hthr, ?_, hl2⟩
          intro ip hip hu
          rcases (List.mem_cons).mp hip with h | h
          · right
            rw [h]
            exact hgt
          · exact hl1 ip h hu
      · have hstep : best_match_loop c ((i, p) :: tl) used (s, b) =
            best_match_loop c tl used (s, b) := by
          simp only [best_match_loop]
          rw [if_neg hiu, if_neg hcond]
        have hc : calculate_similarity c.text p.text ≤ (7 : ℚ)/10 ∨
            calculate_similarity c.text p.text ≤ s := by
          rcases not_and_or.mp hcond with h | h
          · exact Or.inr (not_lt.mp h)
          · exact Or.inl (not_lt.mp h)
        rcases ih s b with ⟨h1, h2⟩ | ⟨l₁, x, l₂, heq, hx, hres, hgt, hthr, hl1, hl2⟩
        · left
          refine ⟨by rw [hstep, h1], ?_⟩
          intro ip hip hu
          rcases (List.mem_cons).mp hip with h | h
          · rw [h]
            exact hc
          · exact h2 ip h hu
        · right
          refine ⟨(i, p) :: l₁, x, l₂, by simp [heq], hx, by rw [hstep, hres], hgt, hthr, ?_, hl2⟩
          intro ip hip hu
          rcases (List.mem_cons).mp hip with h | h
          · rw [h]
            rcases hc with h7 | hs
            · exact Or.inl h7
            · exact Or.inr (lt_of_le_of_lt hs hgt)
          · exact hl1 ip h hu

theorem best_match_loop_some_mem (c : Risk) (used : Finset Nat)
    (l : List (Nat × Risk)) (i : Nat) (p : Risk)
    (h : (best_match_loop c l used (0, none)).2 = some (i, p)) :
    (i, p) ∈ l ∧ i ∉ used := by
  rcases best_match_loop_spec c used l 0 none with
    ⟨h1, _⟩ | ⟨l₁, x, l₂, heq, hx, hres, _, _, _, _⟩
  · rw [h1] at h
    simp at h
  · rw [hres] at h
    simp only at h
    obtain rfl : x = (i, p) := Option.some.inj h
    exact ⟨heq ▸ List.mem_append_right l₁ (List.mem_cons_self _ _), hx⟩

end RiskAnalyzer

/-! ## Helper lemmas: the matching pass as a partition -/

namespace RiskAnalyzer

theorem match_aux_fst (eprevs : List (Nat × Risk)) :
    ∀ (cs : List Risk) (used : Finset Nat),
      (match_aux eprevs cs used).filterMap Prod.fst = cs := by
  intro cs
  induction cs with
  | nil =>
    intro used
    simp [match_aux, List.filterMap_map, Function.comp_def]
  | cons c cs ih =>
    intro used
    cases hb : (best_match_loop c eprevs used (0, none)).2 with
    | none => simp [match_aux, hb, List.filterMap_cons, ih]
    | some ip =>
      obtain ⟨i, p⟩ := ip
      simp [match_aux, hb, List.filterMap_cons, ih]

theorem remaining_perm (i : Nat) (p : Risk) :
    ∀ (eprevs : List (Nat × Risk)) (used : Finset Nat),
      ((eprevs.map Prod.fst).Nodup) → (i, p) ∈ eprevs → i ∉ used →
      ((eprevs.filter (fun ip => decide (ip.1 ∉ used))).map Prod.snd).Perm
        (p :: (eprevs.filter (fun ip => decide (ip.1 ∉ insert i used))).map Prod.snd) := by
  intro eprevs
  induction eprevs with
  | nil => intro used _ hmem; simp at hmem
  | cons hd rest ih =>
    intro used hnd hmem hi
    obtain ⟨j, q⟩ := hd
    have hnd2 : (rest.map Prod.fst).Nodup := (List.nodup_cons.mp (by simpa using hnd)).2
    have hjrest : j ∉ rest.map Prod.fst := (List.nodup_cons.mp (by simpa using hnd)).1
    rcases (List.mem_cons).mp hmem with hhd | hrest
    · injection hhd with h1 h2
      subst h1
      subst h2
      have hfeq : rest.filter (fun ip => decide (ip.1 ∉ used)) =
          rest.filter (fun ip => decide (ip.1 ∉ insert i used)) := by
        apply List.filter_congr
        intro ip hip
        have hne : ip.1 ≠ i := by
          intro hc
          exact hjrest (hc ▸ List.mem_map_of_mem Prod.fst hip)
        simp [Finset.mem_insert, hne]
      have hL : ((i, p) :: rest).filter (fun ip => decide (ip.1 ∉ used)) =
          (i, p) :: rest.filter (fun ip => decide (ip.1 ∉ used)) := by
        simp [List.filter_cons, hi]
      have hR : ((i, p) :: rest).filter (fun ip => decide (ip.1 ∉ insert i used)) =
          rest.filter (fun ip => decide (ip.1 ∉ insert i used)) := by
        simp [List.filter_cons]
      rw [hL, hR, hfeq]
      simp
    · have hji : j ≠ i := by
        intro hc
        exact hjrest (hc ▸ List.mem_map_of_mem Prod.fst hrest)
      have ihp := ih used hnd2 hrest hi
      cases hju : decide (j ∉ used) with
      | false =>
        have hju2 : j ∈ used := by simpa using hju
        have hL : ((j, q) :: rest).filter (fun ip => decide (ip.1 ∉ used)) =
            rest.filter (fun ip => decide (ip.1 ∉ used)) := by
          simp [List.filter_cons, hju2]
        have hR : ((j, q) :: rest).filter (fun ip => decide (ip.1 ∉ insert i used)) =
            rest.filter (fun ip => decide (ip.1 ∉ insert i used)) := by
          simp [List.filter_cons, Finset.mem_insert, hju2]
        rw [hL, hR]
        exact ihp
      | true =>
        have hju2 : j ∉ used := by simpa using hju
        have hL : ((j, q) :: rest).filter (fun ip => decide (ip.1 ∉ used)) =
            (j, q) :: rest.filter (fun ip => decide (ip.1 ∉ used)) := by
          simp [List.filter_cons, hju2]
        have hR : ((j, q) :: rest).filter (fun ip => decide (ip.1 ∉ insert i used)) =
            (j, q) :: rest.filter (fun ip => decide (ip.1 ∉ insert i used)) := by
          simp [List.filter_cons, Finset.mem_insert, hju2, hji]
        rw [hL, hR]
        simp only [List.map_cons]
        exact (ihp.cons q).trans (List.Perm.swap p q _)

theorem match_aux_snd_perm (eprevs : List (Nat × Risk))
    (hnd : (eprevs.map Prod.fst).Nodup) :
    ∀ (cs : List Risk) (used : Finset Nat),
      ((match_aux eprevs cs used).filterMap Prod.snd).Perm
        ((eprevs.filter (fun ip => decide (ip.1 ∉ used))).map Prod.snd) := by
  intro cs
  induction cs with
  | nil =>
    intro used
    have : (match_aux eprevs [] used).filterMap Prod.snd =
        (eprevs.filter (fun ip => decide (ip.1 ∉ used))).map Prod.snd := by
      simp only [match_aux, List.filterMap_map, Function.comp_def]
      rw [show (fun x : Nat × Risk => some x.2) = some ∘ Prod.snd from rfl,
        List.filterMap_eq_map]
    rw [this]
  | cons c cs ih =>
    intro used
    cases hb : (best_match_loop c eprevs used (0, none)).2 with
    | none =>
      have hstep : (match_aux eprevs (c :: cs) used).filterMap Prod.snd =
          (match_aux eprevs cs used).filterMap Prod.snd := by
        simp [match_aux, hb, List.filterMap_cons]
      rw [hstep]
      exact ih used
    | some ip =>
      obtain ⟨i, p⟩ := ip
      obtain ⟨hmem, hi⟩ := best_match_loop_some_mem c used eprevs i p hb
      have hstep : (match_aux eprevs (c :: cs) used).filterMap Prod.snd =
          p :: (match_aux eprevs cs (insert i used)).filterMap Prod.snd := by
        simp [match_aux, hb, List.filterMap_cons]
      rw [hstep]
      exact ((ih (insert i used)).cons p).trans
        (remaining_perm i p eprevs used hnd hmem hi).symm

end RiskAnalyzer

/-- **C1**: the matching produced by `_match_risk_factors` is a partition:
reading off the current component of each output pair returns exactly the
current list (each current entry in exactly one pair), and reading off the
previous component returns a permutation of the previous list (each previous
entry consumed exactly once, matched previous entries at most once, and
every unmatched previous entry appearing in exactly one `(None, prev)`
pair). -/
theorem match_risk_factors_partition (cur prevs : List RiskAnalyzer.Risk) :
    ((RiskAnalyzer.match_risk_factors cur prevs).filterMap Prod.fst = cur) ∧
    ((RiskAnalyzer.match_risk_factors cur prevs).filterMap Prod.snd).Perm prevs := by
  constructor
  · exact RiskAnalyzer.match_aux_fst _ cur ∅
  · have h := RiskAnalyzer.match_aux_snd_perm (RiskAnalyzer.enumIdx 0 prevs)
      (RiskAnalyzer.enumIdx_keys_nodup 0 prevs) cur ∅
    have hfe : (RiskAnalyzer.enumIdx 0 prevs).filter
        (fun ip => decide (ip.1 ∉ (∅ : Finset Nat))) = RiskAnalyzer.enumIdx 0 prevs := by
      apply List.filter_eq_self.mpr
      intro ip _
      simp
    rw [hfe, RiskAnalyzer.enumIdx_map_snd] at h
    exact h

/-! ## Helper lemmas: threshold and selection (C2) -/

namespace RiskAnalyzer

theorem match_aux_pair_sim (eprevs : List (Nat × Risk)) :
    ∀ (cs : List Risk) (used : Finset Nat) (c p : Risk),
      (some c, some p) ∈ match_aux eprevs cs used →
      (7 : ℚ)/10 < calculate_similarity c.text p.text := by
  intro cs
  induction cs with
  | nil =>
    intro used c p h
    simp [match_aux] at h
  | cons c0 cs ih =>
    intro used c p h
    cases hb : (best_match_loop c0 eprevs used (0, none)).2 with
    | none =>
      simp only [match_aux, hb] at h
      rcases (List.mem_cons).mp h with heq | htl
      · exact absurd (congrArg Prod.snd heq) (by simp)
      · exact ih used c p htl
    | some ip =>
      obtain ⟨i, p0⟩ := ip
      simp only [match_aux, hb] at h
      rcases (List.mem_cons).mp h with heq | htl
      · have hc : c = c0 := by
          have := congrArg Prod.fst heq
          simpa using this
        have hp : p = p0 := by
          have := congrArg Prod.snd heq
          simpa using this
        subst hc
        subst hp
        rcases best_match_loop_spec c used eprevs 0 none with
          ⟨h1, _⟩ | ⟨l₁, x, l₂, heq2, hx, hres, hgt, hthr, hl1, hl2⟩
        · rw [h1] at hb
          simp at hb
        · rw [hres] at hb
          simp only at hb
          obtain rfl : x = (i, p) := Option.some.inj hb
          exact hthr
      · exact ih (insert i used) c p htl

theorem best_loop_enum_some (c : Risk) (prevs : List Risk) (used : Finset Nat)
    (i : Nat) (p : Risk)
    (h : (best_match_loop c (enumIdx 0 prevs) used (0, none)).2 = some (i, p)) :
    i ∉ used ∧ ∃ hi : i < prevs.length, prevs.get ⟨i, hi⟩ = p ∧
      (7 : ℚ)/10 < calculate_similarity c.text p.text ∧
      (∀ j (hj : j < prevs.length), j ∉ used →
        calculate_similarity c.text (prevs.get ⟨j, hj⟩).text ≤
          calculate_similarity c.text p.text) ∧
      (∀ j (hj : j < prevs.length), j ∉ used → j < i →
        calculate_similarity c.text (prevs.get ⟨j, hj⟩).text <
          calculate_similarity c.text p.text) := by
  rcases best_match_loop_spec c used (enumIdx 0 prevs) 0 none with
    ⟨h1, _⟩ | ⟨l₁, x, l₂, heq, hx, hres, hgt, hthr, hl1, hl2⟩
  · rw [h1] at h
    simp at h
  · rw [hres] at h
    simp only at h
    obtain rfl : x = (i, p) := Option.some.inj h
    have hmem : (i, p) ∈ enumIdx 0 prevs :=
      heq ▸ List.mem_append_right l₁ (List.mem_cons_self _ _)
    obtain ⟨t, ht, hit, hget⟩ := mem_enumIdx 0 prevs i p hmem
    have hit2 : i = t := by omega
    subst hit2
    refine ⟨hx, ht, hget, hthr, ?_, ?_⟩
    · intro j hj hju
      have hjmem : (j, prevs.get ⟨j, hj⟩) ∈ enumIdx 0 prevs := by
        have := get_mem_enumIdx 0 prevs j hj
        simpa using this
      rw [heq] at hjmem
      rcases List.mem_append.mp hjmem with hmem1 | hmem2
      · rcases hl1 _ hmem1 hju with h7 | hlt
        · exact le_trans h7 (le_of_lt hthr)
        · exact le_of_lt hlt
      · rcases (List.mem_cons).mp hmem2 with heq2 | hmem3
        · have : prevs.get ⟨j, hj⟩ = p := by
            have := congrArg Prod.snd heq2
            simpa using this
          rw [this]
        · rcases hl2 _ hmem3 hju with h7 | hle
          · exact le_trans h7 (le_of_lt hthr)
          · exact hle
    · intro j hj hju hji
      have hjmem : (j, prevs.get ⟨j, hj⟩) ∈ enumIdx 0 prevs := by
        have := get_mem_enumIdx 0 prevs j hj
        simpa using this
      rw [heq] at hjmem
      rcases List.mem_append.mp hjmem with hmem1 | hmem2
      · rcases hl1 _ hmem1 hju with h7 | hlt
        · exact lt_of_le_of_lt h7 hthr
        · exact hlt
      · rcases (List.mem_cons).mp hmem2 with heq2 | hmem3
        · have : j = i := by
            have := congrArg Prod.fst heq2
            simpa using this
          omega
        · have hpw := enumIdx_pairwise_lt 0 prevs
          rw [heq] at hpw
          have hcross := (List.pairwise_append.mp hpw).2.1
          have hij : i < j := (List.pairwise_cons.mp hcross).1 _ hmem3
          omega

theorem best_loop_enum_none (c : Risk) (prevs : List Risk) (used : Finset Nat)
    (h : (best_match_loop c (enumIdx 0 prevs) used (0, none)).2 = none) :
    ∀ j (hj : j < prevs.length), j ∉ used →
      calculate_similarity c.text (prevs.get ⟨j, hj⟩).text ≤ (7 : ℚ)/10 := by
  rcases best_match_loop_spec c used (enumIdx 0 prevs) 0 none with
    ⟨h1, h2⟩ | ⟨l₁, x, l₂, heq, hx, hres, hgt, hthr, hl1, hl2⟩
  · intro j hj hju
    have hjmem : (j, prevs.get ⟨j, hj⟩) ∈ enumIdx 0 prevs := by
      have := get_mem_enumIdx 0 prevs j hj
      simpa using this
    rcases h2 _ hjmem hju with h7 | h0
    · exact h7
    · exact le_trans h0 (by norm_num)
  · rw [hres] at h
    simp at h

end RiskAnalyzer

/-- A crafted pair of texts with Jaccard similarity exactly `7/10`:
ten distinct words against the seven shared among them. -/
def exactText1 : List Char := "w1 w2 w3 w4 w5 w6 w7 x1 x2 x3".toList

/-- The seven-word text sharing exactly seven words with `exactText1`. -/
def exactText2 : List Char := "w1 w2 w3 w4 w5 w6 w7".toList

/-- A current risk entry carrying `exactText1`. -/
def exactRisk1 : RiskAnalyzer.Risk := ⟨"t1".toList, exactText1, 10⟩

/-- A previous risk entry carrying `exactText2`. -/
def exactRisk2 : RiskAnalyzer.Risk := ⟨"t2".toList, exactText2, 7⟩

theorem exact_sim_value :
    RiskAnalyzer.calculate_similarity exactText1 exactText2 = 7/10 := by
  simp only [RiskAnalyzer.calculate_similarity]
  rw [show ((pySplit (exactText1.map Char.toLower)).toFinset ∩
      (pySplit (exactText2.map Char.toLower)).toFinset).card = 7 from by decide]
  rw [show ((pySplit (exactText1.map Char.toLower)).toFinset ∪
      (pySplit (exactText2.map Char.toLower)).toFinset).card = 10 from by decide]
  norm_num

/-- **C2**: a pair is classified `"modified"` only when its Jaccard
similarity strictly exceeds `0.70`; the greedy inner loop selects, among the
unused previous entries, one strictly exceeding the threshold with the
highest score, ties broken in favor of the first-seen (lowest-index)
previous entry, and selects nothing when no unused previous entry strictly
exceeds `0.70`; and a crafted pair scoring exactly `7/10` is not matched —
it yields independent `added`/`removed` events. -/
theorem match_threshold_selection :
    (∀ (cur prevs : List RiskAnalyzer.Risk) (s : ℚ) (a b : List Char) (w : ℤ),
      RiskAnalyzer.Change.modified s a b w ∈
        (RiskAnalyzer.analyze_content_changes cur prevs).changes →
      (7 : ℚ)/10 < s)
    ∧ (∀ (c : RiskAnalyzer.Risk) (prevs : List RiskAnalyzer.Risk)
        (used : Finset Nat) (i : Nat) (p : RiskAnalyzer.Risk),
      (RiskAnalyzer.best_match_loop c (RiskAnalyzer.enumIdx 0 prevs) used
          (0, none)).2 = some (i, p) →
      i ∉ used ∧ ∃ hi : i < prevs.length, prevs.get ⟨i, hi⟩ = p ∧
        (7 : ℚ)/10 < RiskAnalyzer.calculate_similarity c.text p.text ∧
        (∀ j (hj : j < prevs.length), j ∉ used →
          RiskAnalyzer.calculate_similarity c.text (prevs.get ⟨j, hj⟩).text ≤
            RiskAnalyzer.calculate_similarity c.text p.text) ∧
        (∀ j (hj : j < prevs.length), j ∉ used → j < i →
          RiskAnalyzer.calculate_similarity c.text (prevs.get ⟨j, hj⟩).text <
            RiskAnalyzer.calculate_similarity c.text p.text))
    ∧ (∀ (c : RiskAnalyzer.Risk) (prevs : List RiskAnalyzer.Risk)
        (used : Finset Nat),
      (RiskAnalyzer.best_match_loop c (RiskAnalyzer.enumIdx 0 prevs) used
          (0, none)).2 = none →
      ∀ j (hj : j < prevs.length), j ∉ used →
        RiskAnalyzer.calculate_similarity c.text (prevs.get ⟨j, hj⟩).text ≤ (7 : ℚ)/10)
    ∧ (RiskAnalyzer.calculate_similarity exactText1 exactText2 = 7/10 ∧
      RiskAnalyzer.match_risk_factors [exactRisk1] [exactRisk2] =
        [(some exactRisk1, none), (none, some exactRisk2)]) := by
  refine ⟨?_, ?_, ?_, exact_sim_value, ?_⟩
  · intro cur prevs s a b w h
    simp only [RiskAnalyzer.analyze_content_changes, List.mem_map] at h
    obtain ⟨mp, hmp, hfm⟩ := h
    obtain ⟨oc, op⟩ := mp
    cases oc with
    | none =>
      cases op with
      | none => simp at hfm
      | some p => simp at hfm
    | some c =>
      cases op with
      | none => simp at hfm
      | some p =>
        simp only [RiskAnalyzer.Change.modified.injEq] at hfm
        rw [← hfm.1]
        simp only [RiskAnalyzer.match_risk_factors] at hmp
        exact RiskAnalyzer.match_aux_pair_sim _ cur ∅ c p hmp
  · intro c prevs used i p h
    exact RiskAnalyzer.best_loop_enum_some c prevs used i p h
  · intro c prevs used h
    exact RiskAnalyzer.best_loop_enum_none c prevs used h
  · exact RiskAnalyzer.match_single_miss exactRisk1 exactRisk2
      (le_of_eq exact_sim_value)

/-- Witness for C2: the identical nonempty pair is matched with similarity
`1`, which the theorem forces above the `0.70` threshold. -/
theorem match_threshold_selection_witness : (7 : ℚ)/10 < 1 := by
  have hch := RiskAnalyzer.analyze_identical ⟨"t".toList, "hello".toList, 5⟩ (by decide)
  exact match_threshold_selection.1 [⟨"t".toList, "hello".toList, 5⟩]
    [⟨"t".toList, "hello".toList, 5⟩] 1 "t".toList "t".toList 0
    (by rw [hch]; exact List.mem_singleton.mpr rfl)

/-! ## Helper lemmas: whitespace normal form (C5) -/

/-- Adjacent characters of whitespace-collapsed text are never both
whitespace. -/
def noWsPair (a b : Char) : Prop := ¬(isPySpace a = true ∧ isPySpace b = true)

theorem collapseWsAux_space (b : Bool) (l : List Char) :
    ∀ c ∈ collapseWsAux b l, isPySpace c = true → c = ' ' := by
  induction l generalizing b with
  | nil => simp [collapseWsAux]
  | cons a rest ih =>
    intro d hd hws
    simp only [collapseWsAux] at hd
    by_cases ha : isPySpace a = true
    · rw [if_pos ha] at hd
      cases b with
      | true => exact ih true d hd hws
      | false =>
        rcases (List.mem_cons).mp hd with h | h
        · exact h
        · exact ih true d h hws
    · rw [if_neg ha] at hd
      rcases (List.mem_cons).mp hd with h | h
      · exact absurd (h ▸ hws) ha
      · exact ih false d h hws

theorem collapseWsAux_head_true (l : List Char) :
    ∀ c, (collapseWsAux true l).head? = some c → isPySpace c = false := by
  induction l with
  | nil => intro c h; simp [collapseWsAux] at h
  | cons a rest ih =>
    intro c h
    simp only [collapseWsAux] at h
    by_cases ha : isPySpace a = true
    · rw [if_pos ha] at h
      exact ih c h
    · rw [if_neg ha] at h
      simp only [List.head?_cons, Option.some.injEq] at h
      rw [← h]
      simpa using ha

theorem collapseWsAux_chain (b : Bool) (l : List Char) :
    (collapseWsAux b l).Chain' noWsPair := by
  induction l generalizing b with
  | nil => simp [collapseWsAux]
  | cons a rest ih =>
    simp only [collapseWsAux]
    by_cases ha : isPySpace a = true
    · rw [if_pos ha]
      cases b with
      | true => exact ih true
      | false =>
        refine List.chain'_cons'.mpr ⟨?_, ih true⟩
        intro y hy
        intro hc
        rw [collapseWsAux_head_true rest y hy] at hc
        exact absurd hc.2 (by simp)
    · rw [if_neg ha]
      refine List.chain'_cons'.mpr ⟨?_, ih false⟩
      intro y _
      intro hc
      exact absurd hc.1 ha

theorem collapse_id_of_normal (l : List Char)
    (hsp : ∀ c ∈ l, isPySpace c = true → c = ' ')
    (hch : l.Chain' noWsPair) :
    collapseWsAux false l = l ∧
      ((∀ c, l.head? = some c → isPySpace c = false) →
        collapseWsAux true l = l) := by
  induction l with
  | nil => exact ⟨rfl, fun _ => rfl⟩
  | cons a rest ih =>
    have hsp2 : ∀ c ∈ rest, isPySpace c = true → c = ' ' :=
      fun c hc => hsp c (List.mem_cons_of_mem a hc)
    obtain ⟨ih1, ih2⟩ := ih hsp2 hch.tail
    by_cases ha : isPySpace a = true
    · have ha2 : a = ' ' := hsp a (List.mem_cons_self a rest) ha
      have hhead : ∀ c, rest.head? = some c → isPySpace c = false := by
        intro c hc
        have hnp := (List.chain'_cons'.mp hch).1 c hc
        by_contra hcc
        exact hnp ⟨ha, by simpa using hcc⟩
      constructor
      · simp only [collapseWsAux, if_pos ha, Bool.false_eq_true, if_false]
        rw [ih2 hhead, ha2]
      · intro hhd
        exact absurd ha (by simp [hhd a rfl])
    · constructor
      · simp only [collapseWsAux, if_neg ha]
        rw [ih1]
      · intro _
        simp only [collapseWsAux, if_neg ha, if_pos rfl]
        rw [ih1]

theorem prefix_head_eq {α : Type} {s u : List α} (h : s <+: u) (hs : s ≠ []) :
    s.head? = u.head? := by
  obtain ⟨t, rfl⟩ := h
  cases s with
  | nil => exact absurd rfl hs
  | cons a s2 => rfl

theorem dropWhile_dropWhile (p : Char → Bool) (l : List Char) :
    (l.dropWhile p).dropWhile p = l.dropWhile p := by
  cases hd : l.dropWhile p with
  | nil => rfl
  | cons a rest =>
    have hh := List.head?_dropWhile_not p l
    rw [hd] at hh
    simp only [List.head?_cons] at hh
    simp [List.dropWhile_cons, hh]

theorem stripPy_reverse (l : List Char) :
    (stripPy l).reverse = (l.dropWhile isPySpace).reverse.dropWhile isPySpace := by
  unfold stripPy
  rw [List.reverse_reverse]

theorem stripPy_isPrefix (l : List Char) : stripPy l <+: l.dropWhile isPySpace := by
  have h2 : (l.dropWhile isPySpace).reverse.dropWhile isPySpace <:+
      (l.dropWhile isPySpace).reverse := List.dropWhile_suffix _
  have h3 := List.reverse_prefix.mpr (by simpa using h2)
  rw [List.reverse_reverse] at h3
  exact h3

theorem stripPy_isInfix (l : List Char) : stripPy l <:+: l :=
  (stripPy_isPrefix l).isInfix.trans (List.dropWhile_suffix isPySpace).isInfix

theorem stripPy_head (l : List Char) :
    ∀ c, (stripPy l).head? = some c → isPySpace c = false := by
  intro c h
  have hne : stripPy l ≠ [] := by
    intro hc
    rw [hc] at h
    simp at h
  have hhd := prefix_head_eq (stripPy_isPrefix l) hne
  rw [h] at hhd
  have hh := List.head?_dropWhile_not isPySpace l
  rw [← hhd] at hh
  simpa using hh

theorem stripPy_idem (l : List Char) : stripPy (stripPy l) = stripPy l := by
  have h1 : (stripPy l).dropWhile isPySpace = stripPy l := by
    cases hsp : stripPy l with
    | nil => rfl
    | cons a rest =>
      have ha : isPySpace a = false := stripPy_head l a (by rw [hsp]; rfl)
      simp [List.dropWhile_cons, ha]
  show (((stripPy l).dropWhile isPySpace).reverse.dropWhile isPySpace).reverse = stripPy l
  rw [h1, stripPy_reverse, dropWhile_dropWhile, ← stripPy_reverse, List.reverse_reverse]

theorem removeAllAux_id (pat l : List Char) (h : ¬ pat <:+: l) :
    removeAllAux pat l 0 = l := by
  induction l with
  | nil => rfl
  | cons c rest ih =>
    have hpre : ¬ pat.isPrefixOf (c :: rest) = true := by
      intro hc
      exact h (List.isPrefixOf_iff_prefix.mp hc).isInfix
    have hrest : ¬ pat <:+: rest := fun hc => h (List.infix_cons hc)
    simp only [removeAllAux, if_neg hpre]
    rw [ih hrest]

theorem subDigitLinesAux_id (l : List Char) (h : ∀ c ∈ l, c ≠ '\n') :
    subDigitLinesAux l 0 = l := by
  induction l with
  | nil => rfl
  | cons c rest ih =>
    have hc : ¬(c = '\n') := h c (List.mem_cons_self c rest)
    simp only [subDigitLinesAux, if_neg hc]
    rw [ih (fun d hd => h d (List.mem_cons_of_mem c hd))]

theorem splitParas_no_nl : ∀ (l acc : List Char), '\n' ∉ l →
    splitParas acc l = [acc.reverse ++ l] := by
  intro l
  induction l with
  | nil => intro acc _; simp [splitParas]
  | cons c rest ih =>
    intro acc h
    have hc : c ≠ '\n' := fun hcc => h (hcc ▸ List.mem_cons_self c rest)
    have hstep : splitParas acc (c :: rest) = splitParas (c :: acc) rest := by
      cases rest with
      | nil => simp [splitParas]
      | cons d rest2 => simp [splitParas, hc]
    rw [hstep, ih (c :: acc) (fun hm => h (List.mem_cons_of_mem c hm))]
    simp

/-- **C5** counterexample: cleaning `"a Table of Contents b"` yields
`"a  b"` (the removal leaves a double space, since whitespace was collapsed
*before* the removal), and re-cleaning collapses it to `"a b"` — the cleaner
is not idempotent. -/
theorem clean_text_idem_cex :
    Extractors.clean_text "a Table of Contents b".toList = "a  b".toList ∧
    Extractors.clean_text "a  b".toList = "a b".toList ∧
    "a  b".toList ≠ "a b".toList := by decide

/-- **C5** (amended): the extractors cleaner is idempotent on every input
whose whitespace-collapsed form does not contain the removed literal
`"Table of Contents"`; on inputs containing it, the removal can leave a
double space (or a fresh occurrence of the literal) that a second cleaning
pass changes. -/
theorem clean_text_idem (t : List Char)
    (h : ¬ Extractors.tocPat <:+: collapseWs t) :
    Extractors.clean_text (Extractors.clean_text t) = Extractors.clean_text t := by
  have hzsp : ∀ c ∈ collapseWs t, isPySpace c = true → c = ' ' :=
    collapseWsAux_space false t
  have hzch : (collapseWs t).Chain' noWsPair := collapseWsAux_chain false t
  have hznl : '\n' ∉ collapseWs t := by
    intro hm
    have := hzsp '\n' hm (by decide)
    exact absurd this (by decide)
  have hsub : subDigitLines (collapseWs t) = collapseWs t :=
    subDigitLinesAux_id _ (fun c hc hcc => hznl (hcc ▸ hc))
  have hrem : removeAll Extractors.tocPat (collapseWs t) = collapseWs t :=
    removeAllAux_id _ _ h
  have hct : Extractors.clean_text t =
      (if (stripPy (collapseWs t)).all Char.isDigit then []
        else stripPy (collapseWs t)) := by
    simp only [Extractors.clean_text]
    rw [hsub, hrem, splitParas_no_nl _ [] hznl]
    by_cases hd : (stripPy (collapseWs t)).all Char.isDigit
    · rw [if_pos (by simpa using hd)]
      simp [List.filter, hd, List.intercalate]
    · rw [if_neg (by simpa using hd)]
      simp [List.filter, hd, List.intercalate]
  by_cases hd : (stripPy (collapseWs t)).all Char.isDigit
  · rw [hct, if_pos hd]
    decide
  · rw [hct, if_neg hd]
    have hmem : ∀ c ∈ stripPy (collapseWs t), c ∈ collapseWs t :=
      fun c hc => (stripPy_isInfix (collapseWs t)).sublist.subset hc
    have hssp : ∀ c ∈ stripPy (collapseWs t), isPySpace c = true → c = ' ' :=
      fun c hc => hzsp c (hmem c hc)
    have hsch : (stripPy (collapseWs t)).Chain' noWsPair :=
      hzch.infix (stripPy_isInfix (collapseWs t))
    have hcol : collapseWs (stripPy (collapseWs t)) = stripPy (collapseWs t) :=
      (collapse_id_of_normal _ hssp hsch).1
    have hsnl : '\n' ∉ stripPy (collapseWs t) := fun hm => hznl (hmem _ hm)
    have hstoc : ¬ Extractors.tocPat <:+: stripPy (collapseWs t) :=
      fun hc => h (hc.trans (stripPy_isInfix (collapseWs t)))
    have hss : stripPy (stripPy (collapseWs t)) = stripPy (collapseWs t) :=
      stripPy_idem (collapseWs t)
    simp only [Extractors.clean_text]
    rw [show collapseWs (stripPy (collapseWs t)) =
        stripPy (collapseWs t) from hcol,
      show subDigitLines (stripPy (collapseWs t)) = stripPy (collapseWs t) from
        subDigitLinesAux_id _ (fun c hcm hcc => hsnl (hcc ▸ hcm)),
      show removeAll Extractors.tocPat (stripPy (collapseWs t)) =
        stripPy (collapseWs t) from removeAllAux_id _ _ hstoc,
      splitParas_no_nl _ [] hsnl]
    simp only [List.reverse_nil, List.nil_append, List.map_cons, List.map_nil, hss]
    have hd2 : ((stripPy (collapseWs t)).all Char.isDigit) = false := by
      simpa using hd
    simp [List.filter, hd2, List.intercalate]

/-- Witness for C5 (amended) on a text free of the `Table of Contents`
literal. -/
theorem clean_text_idem_witness :
    Extractors.clean_text (Extractors.clean_text " hello  world ".toList) =
      Extractors.clean_text " hello  world ".toList :=
  clean_text_idem " hello  world ".toList (by decide)

/-! ## Helper lemmas: leftmost pattern search (C3) -/

namespace Extractors

/-- Some pattern of `pats` matches at position `i` of `text`. -/
def anyTokMatch (pats : List (List Tok)) (text : List Char) (i : Nat) : Prop :=
  ∃ pat ∈ pats, toksMatchPrefix pat (text.drop i) = true

instance anyTokMatch_decidable (pats : List (List Tok)) (text : List Char) (i : Nat) :
    Decidable (anyTokMatch pats text i) := by
  unfold anyTokMatch
  infer_instance

theorem range_find?_none {f : Nat → Bool} {n : Nat} :
    (List.range n).find? f = none ↔ ∀ i < n, f i = false := by
  rw [List.find?_eq_none]
  constructor
  · intro h i hi
    simpa using h i (List.mem_range.mpr hi)
  · intro h i hi
    simpa using h i (List.mem_range.mp hi)

theorem range_find?_some {f : Nat → Bool} :
    ∀ {n i : Nat}, (List.range n).find? f = some i ↔
      (i < n ∧ f i = true ∧ ∀ j < i, f j = false) := by
  intro n
  induction n with
  | zero => intro i; simp
  | succ n ih =>
    intro i
    rw [List.range_succ, List.find?_append]
    constructor
    · intro h
      cases hr : (List.range n).find? f with
      | some k =>
        rw [hr] at h
        simp only [Option.or] at h
        obtain rfl : k = i := Option.some.inj h
        obtain ⟨h1, h2, h3⟩ := ih.mp hr
        exact ⟨by omega, h2, h3⟩
      | none =>
        rw [hr] at h
        simp only [Option.or] at h
        have hall := range_find?_none.mp hr
        cases hfn : f n with
        | false => simp [List.find?, hfn] at h
        | true =>
          simp only [List.find?, hfn] at h
          obtain rfl : n = i := Option.some.inj h
          exact ⟨by omega, hfn, fun j hj => hall j hj⟩
    · rintro ⟨h1, h2, h3⟩
      cases hr : (List.range n).find? f with
      | some k =>
        obtain ⟨hk1, hk2, hk3⟩ := ih.mp hr
        obtain rfl : k = i := by
          rcases Nat.lt_trichotomy k i with h | h | h
          · exact absurd hk2 (by simp [h3 k h])
          · exact h
          · exact absurd h2 (by simp [hk3 i h])
        simp [Option.or]
      | none =>
        have hin : i = n := by
          by_contra hne
          have hilt : i < n := by omega
          exact absurd h2 (by simp [range_find?_none.mp hr i hilt])
        subst hin
        simp [Option.or, List.find?, h2]

theorem toksMatch_drop_ge (pat : List Tok) (text : List Char) {j : Nat}
    (hj : text.length ≤ j) :
    toksMatchPrefix pat (text.drop j) = toksMatchPrefix pat (text.drop text.length) := by
  rw [List.drop_eq_nil_of_le hj, List.drop_eq_nil_of_le (Nat.le_refl _)]

theorem searchIdx_none_iff (pat : List Tok) (text : List Char) :
    searchIdx pat text = none ↔ ∀ i, toksMatchPrefix pat (text.drop i) = false := by
  unfold searchIdx
  rw [range_find?_none]
  constructor
  · intro h i
    by_cases hi : i < text.length + 1
    · exact h i hi
    · rw [toksMatch_drop_ge pat text (by omega)]
      exact h text.length (by omega)
  · intro h i _
    exact h i

theorem searchIdx_some_iff (pat : List Tok) (text : List Char) (i : Nat) :
    searchIdx pat text = some i ↔
      (toksMatchPrefix pat (text.drop i) = true ∧
        ∀ j < i, toksMatchPrefix pat (text.drop j) = false) := by
  unfold searchIdx
  rw [range_find?_some]
  constructor
  · rintro ⟨_, h2, h3⟩
    exact ⟨h2, h3⟩
  · rintro ⟨h1, h2⟩
    refine ⟨?_, h1, h2⟩
    by_contra hge
    have hlen : text.length < i := by omega
    have hfalse := h2 text.length hlen
    rw [toksMatch_drop_ge pat text (by omega)] at h1
    rw [h1] at hfalse
    exact Bool.noConfusion hfalse

theorem searchIdx_le_of_match (pat : List Tok) (text : List Char) (j : Nat)
    (hm : toksMatchPrefix pat (text.drop j) = true) :
    ∃ j2, searchIdx pat text = some j2 ∧ j2 ≤ j := by
  cases hs : searchIdx pat text with
  | none => exact absurd hm (by simp [(searchIdx_none_iff pat text).mp hs j])
  | some j2 =>
    refine ⟨j2, rfl, ?_⟩
    by_contra hgt
    have := ((searchIdx_some_iff pat text j2).mp hs).2 j (by omega)
    exact absurd hm (by simp [this])

end Extractors

namespace Extractors

theorem foldStart_shape (text : List Char) :
    ∀ (pats : List (List Tok)) (s : Int), (s = -1 ∨ ∃ m : Nat, s = (m : Int)) →
      (pats.foldl (fun sp pat =>
          match searchIdx pat text with
          | some p => if sp = -1 ∨ (p : Int) < sp then (p : Int) else sp
          | none => sp) s = -1 ∨
        ∃ k : Nat, pats.foldl (fun sp pat =>
          match searchIdx pat text with
          | some p => if sp = -1 ∨ (p : Int) < sp then (p : Int) else sp
          | none => sp) s = (k : Int)) := by
  intro pats
  induction pats with
  | nil => intro s hs; exact hs
  | cons pat pats ih =>
    intro s hs
    cases hsp : searchIdx pat text with
    | none =>
      simp only [List.foldl_cons, hsp]
      exact ih s hs
    | some p =>
      simp only [List.foldl_cons, hsp]
      by_cases hc : s = -1 ∨ (p : Int) < s
      · rw [if_pos hc]
        exact ih _ (Or.inr ⟨p, rfl⟩)
      · rw [if_neg hc]
        exact ih s hs

theorem foldStart_go (text : List Char) :
    ∀ (pats : List (List Tok)) (s : Int), (s = -1 ∨ ∃ m : Nat, s = (m : Int)) →
      ((pats.foldl (fun sp pat =>
          match searchIdx pat text with
          | some p => if sp = -1 ∨ (p : Int) < sp then (p : Int) else sp
          | none => sp) s = -1 →
        (s = -1 ∧ ∀ pat ∈ pats, searchIdx pat text = none))
      ∧ (∀ k : Nat, pats.foldl (fun sp pat =>
          match searchIdx pat text with
          | some p => if sp = -1 ∨ (p : Int) < sp then (p : Int) else sp
          | none => sp) s = (k : Int) →
        ((s = (k : Int) ∨ ∃ pat ∈ pats, searchIdx pat text = some k) ∧
          (∀ m : Nat, s = (m : Int) → k ≤ m) ∧
          (∀ pat ∈ pats, ∀ j, searchIdx pat text = some j → k ≤ j)))) := by
  intro pats
  induction pats with
  | nil =>
    intro s _
    constructor
    · intro h
      exact ⟨h, by simp⟩
    · intro k hk
      refine ⟨Or.inl hk, ?_, by simp⟩
      intro m hm
      have hk2 : s = (k : Int) := hk
      omega
  | cons pat pats ih =>
    intro s hs
    cases hsp : searchIdx pat text with
    | none =>
      simp only [List.foldl_cons, hsp]
      obtain ⟨ih1, ih2⟩ := ih s hs
      constructor
      · intro h
        obtain ⟨hs1, hall⟩ := ih1 h
        refine ⟨hs1, ?_⟩
        intro pat2 hp2
        rcases (List.mem_cons).mp hp2 with h2 | h2
        · rw [h2]; exact hsp
        · exact hall pat2 h2
      · intro k hk
        obtain ⟨hor, hmin, hall⟩ := ih2 k hk
        refine ⟨?_, hmin, ?_⟩
        · rcases hor with h | ⟨pat2, hp2, hsome⟩
          · exact Or.inl h
          · exact Or.inr ⟨pat2, List.mem_cons_of_mem pat hp2, hsome⟩
        · intro pat2 hp2 j hj
          rcases (List.mem_cons).mp hp2 with h2 | h2
          · rw [h2, hsp] at hj; exact absurd hj (by simp)
          · exact hall pat2 h2 j hj
    | some p =>
      simp only [List.foldl_cons, hsp]
      by_cases hc : s = -1 ∨ (p : Int) < s
      · rw [if_pos hc]
        obtain ⟨ih1, ih2⟩ := ih (p : Int) (Or.inr ⟨p, rfl⟩)
        constructor
        · intro h
          obtain ⟨hp1, _⟩ := ih1 h
          omega
        · intro k hk
          obtain ⟨hor, hmin, hall⟩ := ih2 k hk
          have hkp : k ≤ p := hmin p rfl
          refine ⟨?_, ?_, ?_⟩
          · rcases hor with h | ⟨pat2, hp2, hsome⟩
            · have : p = k := by omega
              exact Or.inr ⟨pat, List.mem_cons_self _ _, this ▸ hsp⟩
            · exact Or.inr ⟨pat2, List.mem_cons_of_mem pat hp2, hsome⟩
          · intro m hm
            rcases hc with h | h
            · rw [h] at hm; omega
            · rw [hm] at h; omega
          · intro pat2 hp2 j hj
            rcases (List.mem_cons).mp hp2 with h2 | h2
            · rw [h2, hsp] at hj
              have : p = j := Option.some.inj hj
              omega
            · exact hall pat2 h2 j hj
      · rw [if_neg hc]
        obtain ⟨hs1, hs2⟩ := not_or.mp hc
        obtain ⟨ih1, ih2⟩ := ih s hs
        constructor
        · intro h
          exact absurd (ih1 h).1 hs1
        · intro k hk
          obtain ⟨hor, hmin, hall⟩ := ih2 k hk
          obtain ⟨m, hm⟩ : ∃ m : Nat, s = (m : Int) := by
            rcases hs with h | h
            · exact absurd h hs1
            · exact h
          have hkm : k ≤ m := hmin m hm
          have hmp : (m : Int) ≤ (p : Int) := by rw [← hm]; omega
          refine ⟨?_, hmin, ?_⟩
          · rcases hor with h | ⟨pat2, hp2, hsome⟩
            · exact Or.inl h
            · exact Or.inr ⟨pat2, List.mem_cons_of_mem pat hp2, hsome⟩
          · intro pat2 hp2 j hj
            rcases (List.mem_cons).mp hp2 with h2 | h2
            · rw [h2, hsp] at hj
              have : p = j := Option.some.inj hj
              omega
            · exact hall pat2 h2 j hj

theorem foldEnd_go (after : List Char) :
    ∀ (pats : List (List Tok)) (s : Nat),
      ((pats.foldl (fun e pat =>
          match searchIdx pat after with
          | some p => if p < e then p else e
          | none => e) s = s ∨
        ∃ pat ∈ pats, searchIdx pat after = some (pats.foldl (fun e pat =>
          match searchIdx pat after with
          | some p => if p < e then p else e
          | none => e) s)) ∧
      pats.foldl (fun e pat =>
          match searchIdx pat after with
          | some p => if p < e then p else e
          | none => e) s ≤ s ∧
      (∀ pat ∈ pats, ∀ j, searchIdx pat after = some j →
        pats.foldl (fun e pat =>
          match searchIdx pat after with
          | some p => if p < e then p else e
          | none => e) s ≤ j)) := by
  intro pats
  induction pats with
  | nil =>
    intro s
    exact ⟨Or.inl rfl, Nat.le_refl s, by simp⟩
  | cons pat pats ih =>
    intro s
    cases hsp : searchIdx pat after with
    | none =>
      simp only [List.foldl_cons, hsp]
      obtain ⟨ih1, ih2, ih3⟩ := ih s
      refine ⟨?_, ih2, ?_⟩
      · rcases ih1 with h | ⟨pat2, hp2, hsome⟩
        · exact Or.inl h
        · exact Or.inr ⟨pat2, List.mem_cons_of_mem pat hp2, hsome⟩
      · intro pat2 hp2 j hj
        rcases (List.mem_cons).mp hp2 with h2 | h2
        · rw [h2, hsp] at hj; exact absurd hj (by simp)
        · exact ih3 pat2 h2 j hj
    | some p =>
      simp only [List.foldl_cons, hsp]
      by_cases hc : p < s
      · rw [if_pos hc]
        obtain ⟨ih1, ih2, ih3⟩ := ih p
        refine ⟨?_, by omega, ?_⟩
        · rcases ih1 with h | ⟨pat2, hp2, hsome⟩
          · exact Or.inr ⟨pat, List.mem_cons_self _ _, by rw [h]; exact hsp⟩
          · exact Or.inr ⟨pat2, List.mem_cons_of_mem pat hp2, hsome⟩
        · intro pat2 hp2 j hj
          rcases (List.mem_cons).mp hp2 with h2 | h2
          · rw [h2, hsp] at hj
            have : p = j := Option.some.inj hj
            omega
          · exact ih3 pat2 h2 j hj
      · rw [if_neg hc]
        obtain ⟨ih1, ih2, ih3⟩ := ih s
        refine ⟨?_, ih2, ?_⟩
        · rcases ih1 with h | ⟨pat2, hp2, hsome⟩
          · exact Or.inl h
          · exact Or.inr ⟨pat2, List.mem_cons_of_mem pat hp2, hsome⟩
        · intro pat2 hp2 j hj
          rcases (List.mem_cons).mp hp2 with h2 | h2
          · rw [h2, hsp] at hj
            have : p = j := Option.some.inj hj
            omega
          · exact ih3 pat2 h2 j hj

end Extractors

namespace Extractors

theorem foldStart_shape_self (text : List Char) :
    foldStartPos text = -1 ∨ ∃ k : Nat, foldStartPos text = (k : Int) :=
  foldStart_shape text startPatterns (-1) (Or.inl rfl)

theorem foldStart_go_self (text : List Char) :
    ((foldStartPos text = -1 →
      ((-1 : Int) = -1 ∧ ∀ pat ∈ startPatterns, searchIdx pat text = none))
    ∧ (∀ k : Nat, foldStartPos text = (k : Int) →
      (((-1 : Int) = (k : Int) ∨ ∃ pat ∈ startPatterns, searchIdx pat text = some k) ∧
        (∀ m : Nat, (-1 : Int) = (m : Int) → k ≤ m) ∧
        (∀ pat ∈ startPatterns, ∀ j, searchIdx pat text = some j → k ≤ j)))) :=
  foldStart_go text startPatterns (-1) (Or.inl rfl)

theorem foldEnd_go_self (after : List Char) :
    (foldEndPos after = after.length ∨
      ∃ pat ∈ endPatterns, searchIdx pat after = some (foldEndPos after)) ∧
    foldEndPos after ≤ after.length ∧
    (∀ pat ∈ endPatterns, ∀ j, searchIdx pat after = some j → foldEndPos after ≤ j) :=
  foldEnd_go after endPatterns after.length

theorem foldStartPos_neg_of_no_match (text : List Char)
    (h : ∀ i, ¬ anyTokMatch startPatterns text i) : foldStartPos text = -1 := by
  rcases foldStart_shape_self text with hsh | ⟨k, hk⟩
  · exact hsh
  · exfalso
    obtain ⟨hor, _, _⟩ := (foldStart_go_self text).2 k hk
    rcases hor with hor | ⟨pat, hp, hsome⟩
    · omega
    · exact h k ⟨pat, hp, ((searchIdx_some_iff pat text k).mp hsome).1⟩

theorem foldStartPos_eq_least (text : List Char) (i : Nat)
    (hi : anyTokMatch startPatterns text i)
    (hmin : ∀ j < i, ¬ anyTokMatch startPatterns text j) :
    foldStartPos text = (i : Int) := by
  rcases foldStart_shape_self text with hsh | ⟨k, hk⟩
  · exfalso
    obtain ⟨_, hall⟩ := (foldStart_go_self text).1 hsh
    obtain ⟨pat, hp, hm⟩ := hi
    obtain ⟨j2, hj2, _⟩ := searchIdx_le_of_match pat text i hm
    rw [hall pat hp] at hj2
    exact Option.noConfusion hj2
  · obtain ⟨hor, _, hall⟩ := (foldStart_go_self text).2 k hk
    have hk_eq : k = i := by
      have hkmatch : anyTokMatch startPatterns text k := by
        rcases hor with hbad | ⟨pat, hp, hsome⟩
        · exfalso; omega
        · exact ⟨pat, hp, ((searchIdx_some_iff pat text k).mp hsome).1⟩
      have hik : i ≤ k := by
        by_contra hc
        exact hmin k (by omega) hkmatch
      obtain ⟨pat0, hp0, hm0⟩ := hi
      obtain ⟨j2, hj2, hj2le⟩ := searchIdx_le_of_match pat0 text i hm0
      have := hall pat0 hp0 j2 hj2
      omega
    rw [hk_eq] at hk
    exact hk

theorem foldEndPos_of_no_match (after : List Char)
    (h : ∀ k, ¬ anyTokMatch endPatterns after k) :
    foldEndPos after = after.length := by
  obtain ⟨hor, _, _⟩ := foldEnd_go_self after
  rcases hor with h1 | ⟨pat, hp, hsome⟩
  · exact h1
  · exact absurd ⟨pat, hp, ((searchIdx_some_iff pat after _).mp hsome).1⟩ (h _)

theorem foldEndPos_of_least (after : List Char) (e : Nat)
    (he : anyTokMatch endPatterns after e)
    (hmin : ∀ k < e, ¬ anyTokMatch endPatterns after k) :
    foldEndPos after = e := by
  obtain ⟨hor, hle, hall⟩ := foldEnd_go_self after
  obtain ⟨pat0, hp0, hm0⟩ := he
  obtain ⟨j2, hj2, hj2le⟩ := searchIdx_le_of_match pat0 after e hm0
  have hup : foldEndPos after ≤ e := le_trans (hall pat0 hp0 j2 hj2) hj2le
  have hlow : e ≤ foldEndPos after := by
    rcases hor with h1 | ⟨pat, hp, hsome⟩
    · rw [h1]
      by_contra hc
      have hgt : after.length < e := by omega
      have hmAtLen : toksMatchPrefix pat0 (after.drop after.length) = true := by
        rw [← toksMatch_drop_ge pat0 after (le_of_lt hgt)]
        exact hm0
      exact hmin after.length hgt ⟨pat0, hp0, hmAtLen⟩
    · have hmr := ((searchIdx_some_iff pat after _).mp hsome).1
      by_contra hc
      exact hmin _ (by omega) ⟨pat, hp, hmr⟩
  omega

end Extractors

/-- **C3** (amended): `_extract_risk_section` returns `None` when no
start-marker pattern matches anywhere; when a start marker matches, the
result is the whitespace-*stripped* substring running from the earliest
start-marker match position to the nearest end-marker match position in the
remainder (end of document if no end marker matches), returned as `None`
when that stripped substring is empty. -/
theorem extract_risk_section_spec (text : List Char) :
    ((∀ i, ¬ Extractors.anyTokMatch Extractors.startPatterns text i) →
      Extractors.extract_risk_section text = none)
    ∧ (∀ i, Extractors.anyTokMatch Extractors.startPatterns text i →
        (∀ j < i, ¬ Extractors.anyTokMatch Extractors.startPatterns text j) →
        ∀ e, ((Extractors.anyTokMatch Extractors.endPatterns (text.drop i) e ∧
                ∀ k < e, ¬ Extractors.anyTokMatch Extractors.endPatterns (text.drop i) k) ∨
              ((∀ k, ¬ Extractors.anyTokMatch Extractors.endPatterns (text.drop i) k) ∧
                e = (text.drop i).length)) →
          Extractors.extract_risk_section text =
            (if (stripPy ((text.drop i).take e)).isEmpty then none
              else some (stripPy ((text.drop i).take e)))) := by
  constructor
  · intro h
    simp only [Extractors.extract_risk_section,
      Extractors.foldStartPos_neg_of_no_match text h]
    rfl
  · intro i hi hmin e he
    have hsp := Extractors.foldStartPos_eq_least text i hi hmin
    have hep : Extractors.foldEndPos (text.drop i) = e := by
      rcases he with ⟨he1, he2⟩ | ⟨he1, he2⟩
      · exact Extractors.foldEndPos_of_least _ e he1 he2
      · rw [he2]
        exact Extractors.foldEndPos_of_no_match _ he1
    simp only [Extractors.extract_risk_section, hsp]
    rw [if_neg (by omega : ¬((i : Int) = -1))]
    rw [show ((i : Int)).toNat = i from rfl, hep]

/-- The concrete document used to separate the raw slice from the stripped
slice: the earliest start match is at position 0 and the nearest end match
at position 12, and the slice between them carries trailing whitespace. -/
def cex3Text : List Char := "Item 1A. x \nItem 1B".toList

/-- **C3** counterexample: on `cex3Text` the code returns the *stripped*
slice `"Item 1A. x"`, not the raw substring between the earliest
start-marker match (position 0) and the nearest end-marker match
(position 12), which still carries a trailing `" \n"`. -/
theorem extract_risk_section_cex :
    Extractors.anyTokMatch Extractors.startPatterns cex3Text 0 ∧
    Extractors.anyTokMatch Extractors.endPatterns (cex3Text.drop 0) 12 ∧
    (∀ k < 12, ¬ Extractors.anyTokMatch Extractors.endPatterns (cex3Text.drop 0) k) ∧
    Extractors.extract_risk_section cex3Text = some "Item 1A. x".toList ∧
    "Item 1A. x".toList ≠ (cex3Text.drop 0).take 12 := by decide

/-- Witness for C3 (amended) on the same concrete document. -/
theorem extract_risk_section_spec_witness :
    Extractors.extract_risk_section cex3Text =
      (if (stripPy ((cex3Text.drop 0).take 12)).isEmpty then none
        else some (stripPy ((cex3Text.drop 0).take 12))) :=
  (extract_risk_section_spec cex3Text).2 0 (by decide)
    (fun j hj => absurd hj (Nat.not_lt_zero j)) 12
    (Or.inl ⟨by decide, by decide⟩)

/-- C8 counterexample: in `RiskComparator.compare_years`, a summarization
failure does cause the whole comparison output to be absent.  With both
years loaded and a parseable response the output is present; with the same
years and a service error it is `None` — statistics (similarity score,
word-count metadata) included. -/
theorem comparator_summarization_blocks_cex :
    (RiskComparator.compare_years
        (fun c => if c = "good".toList then some () else none)
        (some ⟨"alpha beta".toList, 2⟩) (some ⟨"alpha gamma".toList, 2⟩)
        (RiskAnalyzer.ServiceOutcome.ok "good".toList)).isSome = true ∧
    RiskComparator.compare_years
        (fun c => if c = "good".toList then some () else none)
        (some ⟨"alpha beta".toList, 2⟩) (some ⟨"alpha gamma".toList, 2⟩)
        (RiskAnalyzer.ServiceOutcome.err "boom".toList) = none := by
  constructor
  · rfl
  · rfl

/-- C8 (amended): the two cited callers behave differently.  In
`RiskAnalyzer.compare_years` a summarization failure (service error or
malformed JSON) never causes the whole comparison output to be absent:
whenever a comparison succeeds under any summarization outcome, the same
inputs under a failing outcome still return a result carrying the
statistical comparison, with `ai_analysis` degraded to the fallback error
dictionary.  In `RiskComparator.compare_years`, by contrast, a
summarization failure makes the whole comparison output absent (`None`),
statistics included. -/
theorem summarization_failure_impact :
    (∀ (α : Type) (parse : List Char → Option α)
        (cur prev : RiskAnalyzer.YearData)
        (o ofail : RiskAnalyzer.ServiceOutcome),
      RiskAnalyzer.summarizationFails parse ofail →
      (RiskAnalyzer.compare_years parse cur prev o).isSome →
      ∃ r, RiskAnalyzer.compare_years parse cur prev ofail = some r ∧
        (∃ s, RiskAnalyzer.compare_statistics cur prev = some s ∧
          r.statistics = s) ∧
        ∃ m, r.ai_analysis = RiskAnalyzer.AiAnalysis.failed m)
    ∧ (∀ (α : Type) (parse : List Char → Option α)
        (rf1 rf2 : Option RiskComparator.LoadedRiskFactors)
        (ofail : RiskAnalyzer.ServiceOutcome),
      RiskAnalyzer.summarizationFails parse ofail →
      RiskComparator.compare_years parse rf1 rf2 ofail = none) := by
  constructor
  · intro α parse cur prev o ofail hfail h
    exact compare_years_degrades_gracefully parse cur prev o ofail hfail h
  · intro α parse rf1 rf2 ofail hfail
    have hac : RiskComparator.analyze_changes parse ofail = none := by
      cases ofail with
      | err m => rfl
      | ok c =>
        simp only [RiskAnalyzer.summarizationFails] at hfail
        simp [RiskComparator.analyze_changes, hfail]
    cases rf1 with
    | none => rfl
    | some r1 =>
      cases rf2 with
      | none => rfl
      | some r2 =>
        simp [RiskComparator.compare_years, hac]

/-- Witness for C8 (amended), exercising both conjuncts: a nonempty pair of
analyzer years compared under a service error still yields statistics plus
a fallback analysis, while the comparator under the same service error
yields nothing. -/
theorem summarization_failure_impact_witness :
    (∃ r, RiskAnalyzer.compare_years (fun _ => (some () : Option Unit))
        ⟨[⟨"t".toList, "hello".toList, 1⟩]⟩ ⟨[⟨"t".toList, "hello".toList, 1⟩]⟩
        (RiskAnalyzer.ServiceOutcome.err "boom".toList) = some r ∧
      (∃ s, RiskAnalyzer.compare_statistics
          ⟨[⟨"t".toList, "hello".toList, 1⟩]⟩
          ⟨[⟨"t".toList, "hello".toList, 1⟩]⟩ = some s ∧
        r.statistics = s) ∧
      ∃ m, r.ai_analysis = RiskAnalyzer.AiAnalysis.failed m) ∧
    RiskComparator.compare_years (fun _ => (some () : Option Unit))
        (some ⟨"alpha beta".toList, 2⟩) (some ⟨"alpha gamma".toList, 2⟩)
        (RiskAnalyzer.ServiceOutcome.err "boom".toList) = none :=
  ⟨summarization_failure_impact.1 Unit (fun _ => some ())
      ⟨[⟨"t".toList, "hello".toList, 1⟩]⟩ ⟨[⟨"t".toList, "hello".toList, 1⟩]⟩
      (RiskAnalyzer.ServiceOutcome.ok []) (RiskAnalyzer.ServiceOutcome.err "boom".toList)
      trivial
      (by unfold RiskAnalyzer.compare_years RiskAnalyzer.compare_statistics; simp),
    summarization_failure_impact.2 Unit (fun _ => some ())
      (some ⟨"alpha beta".toList, 2⟩) (some ⟨"alpha gamma".toList, 2⟩)
      (RiskAnalyzer.ServiceOutcome.err "boom".toList) trivial⟩
